import Mathlib

set_option maxHeartbeats 1000000

namespace ExcelProc

/-! Shallow embedding of the content-normalization and batch-translation pipeline of the
Excel-content-processor repository.  JavaScript strings are modelled as lists of UTF-16
code units (`List Nat`), so that the semantics of `String.fromCharCode` (reduction of the
argument modulo 2 ^ 16) and of the regex passes can be captured faithfully.  Regex-based
global replacements are embedded as fuel-indexed left-to-right scanners; the fuel is set
to the length of the scanned list, which is always sufficient because every step consumes
at least one code unit. -/

/-- UTF-16 encoding of one Unicode scalar value. -/
def utf16Char (c : Char) : List Nat :=
  if c.toNat < 65536 then [c.toNat]
  else [55296 + (c.toNat - 65536) / 1024, 56320 + (c.toNat - 65536) % 1024]

/-- A JavaScript string: its list of UTF-16 code units. -/
abbrev JStr := List Nat

/-- Code units of a Lean string literal, as a JavaScript string would hold them. -/
def jstr (s : String) : JStr := s.data.foldr (fun c acc => utf16Char c ++ acc) []

/-- Whitespace class of the JS regex class backslash-s and of String.prototype.trim
(WhiteSpace together with LineTerminator). -/
def isWS (c : Nat) : Bool :=
  c == 9 || c == 10 || c == 11 || c == 12 || c == 13 || c == 32 || c == 160 ||
  c == 5760 || (decide (8192 ≤ c) && decide (c ≤ 8202)) || c == 8232 || c == 8233 ||
  c == 8239 || c == 8287 || c == 12288 || c == 65279

/-- Decimal digit code units 0-9. -/
def isDigit (c : Nat) : Bool := decide (48 ≤ c) && decide (c ≤ 57)

/-- Hexadecimal digit code units 0-9, A-F, a-f. -/
def isHexDigit (c : Nat) : Bool :=
  isDigit c || (decide (65 ≤ c) && decide (c ≤ 70)) || (decide (97 ≤ c) && decide (c ≤ 102))

/-- Numeric value of a decimal digit run, as parseInt(run, 10) computes it. -/
def digitsVal (l : List Nat) : Nat := l.foldl (fun a c => a * 10 + (c - 48)) 0

/-- Numeric value of one hexadecimal digit code unit. -/
def hexDigitVal (c : Nat) : Nat :=
  if c ≤ 57 then c - 48 else if c ≤ 70 then c - 55 else c - 87

/-- Numeric value of a hexadecimal digit run, as parseInt(run, 16) computes it. -/
def hexVal (l : List Nat) : Nat := l.foldl (fun a c => a * 16 + hexDigitVal c) 0

/-- Decimal numeral of a natural number (code units), with explicit fuel. -/
def natDigitsAux : Nat → Nat → List Nat
  | 0, _ => []
  | f + 1, n => if n < 10 then [48 + n] else natDigitsAux f (n / 10) ++ [48 + n % 10]

/-- Decimal numeral of a natural number, as JS template interpolation renders it. -/
def natDigits (n : Nat) : List Nat := natDigitsAux (n + 1) n

/-- Fuel-indexed scanner for the global replacement of a literal pattern, the semantics of
String.prototype.replace with a literal global regex: leftmost occurrences are replaced,
scanning resumes after the replacement. -/
def replaceLitF : Nat → JStr → JStr → JStr → JStr
  | 0, _, _, s => s
  | _ + 1, _, _, [] => []
  | f + 1, pat, rep, c :: rest =>
    if pat.isPrefixOf (c :: rest) then rep ++ replaceLitF f pat rep ((c :: rest).drop pat.length)
    else c :: replaceLitF f pat rep rest

/-- Global replacement of a literal pattern. -/
def replaceLit (pat rep s : JStr) : JStr := replaceLitF s.length pat rep s

/-- Fuel-indexed scanner for the decimal numeric-reference pass, the semantics of
replace(regex amp-hash-digits-semi, fromCharCode(parseInt(digits, 10))): a well-formed
reference becomes the code unit given by its value reduced modulo 2 ^ 16 (the reduction
is what String.fromCharCode performs); anything else is copied unchanged. -/
def decPassF : Nat → JStr → JStr
  | 0, s => s
  | _ + 1, [] => []
  | f + 1, c :: rest =>
    if c == 38 && rest.head? == some 35 && !(rest.tail.takeWhile isDigit).isEmpty &&
       (rest.tail.dropWhile isDigit).head? == some 59
    then digitsVal (rest.tail.takeWhile isDigit) % 65536 ::
         decPassF f (rest.tail.dropWhile isDigit).tail
    else c :: decPassF f rest

/-- Decimal numeric-reference pass. -/
def decPass (s : JStr) : JStr := decPassF s.length s

/-- Fuel-indexed scanner for the hexadecimal numeric-reference pass, the semantics of
replace(regex amp-hash-x-hexdigits-semi, fromCharCode(parseInt(hex, 16))). -/
def hexPassF : Nat → JStr → JStr
  | 0, s => s
  | _ + 1, [] => []
  | f + 1, c :: rest =>
    if c == 38 && rest.head? == some 35 && rest.tail.head? == some 120 &&
       !(rest.tail.tail.takeWhile isHexDigit).isEmpty &&
       (rest.tail.tail.dropWhile isHexDigit).head? == some 59
    then hexVal (rest.tail.tail.takeWhile isHexDigit) % 65536 ::
         hexPassF f (rest.tail.tail.dropWhile isHexDigit).tail
    else c :: hexPassF f rest

/-- Hexadecimal numeric-reference pass. -/
def hexPass (s : JStr) : JStr := hexPassF s.length s

/-- Fuel-indexed scanner for tag stripping, the semantics of replace(regex lt-nongt-star-gt,
empty): a lt with a later gt removes everything through the first such gt. -/
def stripTagsF : Nat → JStr → JStr
  | 0, s => s
  | _ + 1, [] => []
  | f + 1, c :: rest =>
    if c == 60 && (rest.dropWhile (fun d => !(d == 62))).head? == some 62
    then stripTagsF f (rest.dropWhile (fun d => !(d == 62))).tail
    else c :: stripTagsF f rest

/-- Tag-stripping pass. -/
def stripTags (s : JStr) : JStr := stripTagsF s.length s

/-- Fuel-indexed scanner collapsing every maximal whitespace run to a single space,
the semantics of replace(regex backslash-s-plus, space). -/
def collapseWSF : Nat → JStr → JStr
  | 0, s => s
  | _ + 1, [] => []
  | f + 1, c :: rest =>
    if isWS c then 32 :: collapseWSF f (rest.dropWhile isWS)
    else c :: collapseWSF f rest

/-- Whitespace-collapsing pass. -/
def collapseWS (s : JStr) : JStr := collapseWSF s.length s

/-- Removal of a maximal trailing whitespace run. -/
def dropTrailingWS : JStr → JStr
  | [] => []
  | c :: rest =>
    if (dropTrailingWS rest).isEmpty && isWS c then []
    else c :: dropTrailingWS rest

/-- Semantics of String.prototype.trim: leading and trailing whitespace removed. -/
def trimWS (s : JStr) : JStr := dropTrailingWS (s.dropWhile isWS)

/-- Chain of the six named-entity replacements shared by cleanContentForTranslation and
decodeHTMLEntities, in source order: lt, gt, amp, quot, nbsp, apos. -/
def namedChain (s : JStr) : JStr :=
  replaceLit [38, 97, 112, 111, 115, 59] [39]
    (replaceLit [38, 110, 98, 115, 112, 59] [32]
      (replaceLit [38, 113, 117, 111, 116, 59] [34]
        (replaceLit [38, 97, 109, 112, 59] [38]
          (replaceLit [38, 103, 116, 59] [62]
            (replaceLit [38, 108, 116, 59] [60] s)))))

/-- Uncached replace chain in the body of cleanContentForTranslation (optimizedAiService):
decimal numeric references, the six named entities, tag stripping, whitespace collapsing,
trim, in that order. -/
def cleanContentPipeline (s : JStr) : JStr :=
  trimWS (collapseWS (stripTags (namedChain (decPass s))))

/-- Entity decoder decodeHTMLEntities of optimizedExcelParser: decimal references, the six
named entities, then hexadecimal references, in that order. -/
def decodeHTMLEntities (s : JStr) : JStr := hexPass (namedChain (decPass s))

/-- Tag removal removeHTMLTags of optimizedExcelParser. -/
def removeHTMLTags (s : JStr) : JStr := stripTags s

/-! LRU cache of optimizedAiService: a JS Map used with delete-and-reinsert on get, so that
insertion order (oldest first) is the recency order. -/

/-- LRUCache of optimizedAiService: bounded map with least-recently-used eviction. -/
structure LRUCache where
  maxSize : Nat
  entries : List (JStr × JStr)
deriving DecidableEq

/-- LRUCache.get: on a hit the entry is deleted and re-inserted at the end (recency mark),
on a miss null is returned. -/
def LRUCache.get (c : LRUCache) (k : JStr) : Option JStr × LRUCache :=
  match c.entries.find? (fun e => e.1 == k) with
  | some e =>
      (some e.2, { c with entries := c.entries.filter (fun e2 => !(e2.1 == k)) ++ [(k, e.2)] })
  | none => (none, c)

/-- LRUCache.set: an existing key is deleted and re-inserted with the new value; otherwise,
at capacity, the first (least recently used) entry is evicted before inserting. -/
def LRUCache.set (c : LRUCache) (k v : JStr) : LRUCache :=
  if c.entries.any (fun e => e.1 == k) then
    { c with entries := c.entries.filter (fun e => !(e.1 == k)) ++ [(k, v)] }
  else if c.maxSize ≤ c.entries.length then
    { c with entries := c.entries.tail ++ [(k, v)] }
  else
    { c with entries := c.entries ++ [(k, v)] }

/-- Content cache in its initial state: new LRUCache(1000). -/
def contentCache0 : LRUCache := ⟨1000, []⟩

/-- Cache key built by cleanContentForTranslation: the template
clean underscore length underscore prefix, where the prefix is slice(0, 20). -/
def cacheKey (content : JStr) : JStr :=
  jstr "clean_" ++ natDigits content.length ++ [95] ++ content.take 20

/-- Memoized normalizer cleanContentForTranslation of optimizedAiService, threading the
content cache explicitly.  A falsy (empty) input returns the empty string without touching
the cache; a truthy cached value is returned as is; otherwise the uncached pipeline runs
and its result is stored under the key.  Non-string inputs (which also return the empty
string in the source) do not occur at the call sites modelled here. -/
def cleanContentForTranslation (st : LRUCache) (content : JStr) : JStr × LRUCache :=
  if content.isEmpty then ([], st)
  else
    match LRUCache.get st (cacheKey content) with
    | (some v, st1) =>
        if v.isEmpty then
          (cleanContentPipeline content,
           LRUCache.set st1 (cacheKey content) (cleanContentPipeline content))
        else (v, st1)
    | (none, st1) =>
        (cleanContentPipeline content,
         LRUCache.set st1 (cacheKey content) (cleanContentPipeline content))

/-- Cache states reachable for the content cache: it starts empty with capacity 1000, is
written only by cleanContentForTranslation, and clearCaches empties it. -/
inductive ContentCacheReachable : LRUCache → Prop
  | empty : ContentCacheReachable contentCache0
  | step (st : LRUCache) (x : JStr) : ContentCacheReachable st →
      ContentCacheReachable (cleanContentForTranslation st x).2
  | clear (st : LRUCache) : ContentCacheReachable st → ContentCacheReachable ⟨st.maxSize, []⟩

/-! Cell processing of optimizedExcelParser. -/

/-- JS value as it can reach processCell: null, undefined, a string or a number. -/
inductive JSValue where
  | nullv
  | undefv
  | str (s : JStr)
  | num (n : Nat)
deriving DecidableEq

/-- Semantics of String(v). -/
def jsToString : JSValue → JStr
  | .nullv => jstr "null"
  | .undefv => jstr "undefined"
  | .str s => s
  | .num n => natDigits n

/-- Semantics of the test of regex lt-nongt-star-gt: somewhere a lt with a later gt. -/
def hasHtmlTest : JStr → Bool
  | [] => false
  | c :: rest => (c == 60 && rest.contains 62) || hasHtmlTest rest

/-- Character class of the entity-detection regex: letters, digits and the hash sign. -/
def isEntityChar (c : Nat) : Bool :=
  (decide (97 ≤ c) && decide (c ≤ 122)) || (decide (65 ≤ c) && decide (c ≤ 90)) ||
  isDigit c || c == 35

/-- Recognizer for class-star followed by a semicolon. -/
def entSemi : JStr → Bool
  | [] => false
  | c :: rest => c == 59 || (isEntityChar c && entSemi rest)

/-- Recognizer for class-plus followed by a semicolon. -/
def entAfterAmp : JStr → Bool
  | [] => false
  | c :: rest => isEntityChar c && entSemi rest

/-- Semantics of the test of regex amp-class-plus-semi. -/
def hasEntitiesTest : JStr → Bool
  | [] => false
  | c :: rest => (c == 38 && entAfterAmp rest) || hasEntitiesTest rest

/-- Annotated cell record produced by processCell. -/
structure CellRec where
  original : JStr
  cleaned : JStr
  hasHtml : Bool
  hasEntities : Bool
  isEmpty : Bool
deriving DecidableEq

/-- Record returned for null, undefined or empty-string cells. -/
def emptyCellRec : CellRec := ⟨[], [], false, false, true⟩

/-- Cell processing processCell of optimizedExcelParser: null, undefined and the empty
string yield the empty record; any other value is stringified, the detection flags are
computed on that original string, entities are decoded when detected, tags removed when
detected, and whitespace collapsed and trimmed. -/
def processCell (cellValue : JSValue) : CellRec :=
  if cellValue = .nullv ∨ cellValue = .undefv ∨ cellValue = .str [] then emptyCellRec
  else
    let original := jsToString cellValue
    let hasHtml := hasHtmlTest original
    let hasEntities := hasEntitiesTest original
    let cleaned0 := if hasEntities then decodeHTMLEntities original else original
    let cleaned1 := if hasHtml then removeHTMLTags cleaned0 else cleaned0
    let cleaned := trimWS (collapseWS cleaned1)
    ⟨original, cleaned, hasHtml, hasEntities, cleaned.isEmpty || (trimWS cleaned).isEmpty⟩

/-! Spreadsheet ingestion parseExcelFile of optimizedExcelParser (the data transformation
performed in the onload handler, after sheet-to-json conversion with header 1, blank
default empty string and raw false, so cells are strings). -/

/-- Indexing a row as JS does: out of range yields undefined. -/
def jsCellAt (r : List JStr) (c : Nat) : JSValue :=
  match r[c]? with
  | some s => .str s
  | none => .undefv

/-- Row filter: some cell is not owned by the empty string (the null and undefined cases
cannot arise for string cells). -/
def rowHasContent (row : List JStr) : Bool := row.any (fun c => !(c == []))

/-- Column test: some row has, at this index, a cell that is non-empty and has non-blank
trimmed content. -/
def colHasData (filtered : List (List JStr)) (c : Nat) : Bool :=
  filtered.any (fun r =>
    match r[c]? with
    | some s => !(s == []) && !((trimWS s) == [])
    | none => false)

/-- Chunked mapping: the source processes rows in chunks of 100 and concatenates the
processed chunks (the cooperative yield between chunks has no effect on the data). -/
def chunkedMapF {α β : Type} (g : α → β) : Nat → List α → List β
  | 0, _ => []
  | _ + 1, [] => []
  | f + 1, a :: l0 => ((a :: l0).take 100).map g ++ chunkedMapF g f ((a :: l0).drop 100)

/-- Ingestion core of parseExcelFile: drop rows with no non-empty cell, keep exactly the
column indices (below the first surviving row length) that hold data in some row, and
process every kept cell with processCell. -/
def parseExcelFile (rows : List (List JStr)) : List (List CellRec) :=
  let filtered := rows.filter rowHasContent
  let totalColumns := (filtered.headD []).length
  let cols := (List.range totalColumns).filter (colHasData filtered)
  chunkedMapF (fun r => cols.map (fun c => processCell (jsCellAt r c))) filtered.length filtered

/-- Modelled from the spec: index of the last non-blank cell of a row, plus one. -/
def lastNonBlankPlusOne : List JStr → Nat
  | [] => 0
  | c :: rest =>
    let t := lastNonBlankPlusOne rest
    if t = 0 then (if (trimWS c).isEmpty then 0 else 1) else t + 1

/-- Modelled from the spec: the effective column count, the maximum over all rows of the
index of the last non-blank cell in that row plus one. -/
def specEffectiveColCount (rows : List (List JStr)) : Nat :=
  rows.foldl (fun m r => max m (lastNonBlankPlusOne r)) 0

/-! Batch translation engine translateBatchStructured of optimizedAiService. -/

/-- Truncation of an item longer than 1500 code units, with a trailing three-dot mark. -/
def truncate1500 (s : JStr) : JStr :=
  if 1500 < s.length then s.take 1500 ++ [46, 46, 46] else s

/-- Pre-cleaning pass of translateBatchStructured: each item cleaned through the memoized
normalizer (threading the content cache) and truncated. -/
def mapCleanTrunc : LRUCache → List JStr → List JStr × LRUCache
  | st, [] => ([], st)
  | st, c :: rest =>
    let p := cleanContentForTranslation st c
    let r := mapCleanTrunc p.2 rest
    (truncate1500 p.1 :: r.1, r.2)

/-- Mapping of the memoized normalizer over a list, threading the content cache (the
branch of translateBatchStructured taken when no API key is configured). -/
def mapClean : LRUCache → List JStr → List JStr × LRUCache
  | st, [] => ([], st)
  | st, c :: rest =>
    let p := cleanContentForTranslation st c
    let r := mapClean p.2 rest
    (p.1 :: r.1, r.2)

/-- Error raised by the translation job. -/
inductive TranslationError where
  | cancelled
deriving DecidableEq

instance {ε α : Type} [DecidableEq ε] [DecidableEq α] : DecidableEq (Except ε α) := fun a b =>
  match a, b with
  | .ok x, .ok y =>
      if h : x = y then isTrue (by rw [h]) else isFalse (fun hc => h (Except.ok.inj hc))
  | .error x, .error y =>
      if h : x = y then isTrue (by rw [h]) else isFalse (fun hc => h (Except.error.inj hc))
  | .ok _, .error _ => isFalse (fun hc => Except.noConfusion hc)
  | .error _, .ok _ => isFalse (fun hc => Except.noConfusion hc)

/-- Reconciliation loop of one batch: slot j takes the parsed translation when it exists,
is non-empty and has non-blank trim, and the pre-cleaned original otherwise. -/
def padBatch (batch ts : List JStr) : List JStr :=
  (List.range batch.length).map (fun j =>
    if decide (j < ts.length) && !(ts.getD j []).isEmpty && !(trimWS (ts.getD j [])).isEmpty
    then ts.getD j [] else batch.getD j [])

/-- Contribution of one batch to the output array: an API or parse failure (outcome none)
falls back to the whole batch; a cancellation observed after the response (postC k) throws
inside the per-batch try and is absorbed by the same catch, so it also falls back to the
whole batch; otherwise the parsed translations are reconciled slot by slot. -/
def batchResult (outcomes : Nat → Option (List JStr)) (postC : Nat → Bool) (k : Nat)
    (batch : List JStr) : List JStr :=
  match outcomes k with
  | none => batch
  | some ts => if postC k then batch else padBatch batch ts

/-- Batch loop of translateBatchStructured.  For batch k: the cancellation observation
before dispatch (preC k) throws; otherwise the batch contributes batchResult and the loop
continues.  The fuel is the length of the remaining list. -/
def runBatchesF (outcomes : Nat → Option (List JStr)) (preC postC : Nat → Bool) :
    Nat → Nat → List JStr → Except TranslationError (List JStr)
  | 0, _, _ => .ok []
  | _ + 1, _, [] => .ok []
  | f + 1, k, rest =>
    if preC k then .error .cancelled
    else
      match runBatchesF outcomes preC postC f (k + 1) (rest.drop 100) with
      | .ok tail => .ok (batchResult outcomes postC k (rest.take 100) ++ tail)
      | .error e => .error e

/-- Value the engine is expected to deliver at global slot i when no pre-dispatch
cancellation fires: batch number i / 100, batch-local index i % 100, fallback to the
pre-cleaned item at i. -/
def slotVal (outcomes : Nat → Option (List JStr)) (postC : Nat → Bool) (k : Nat)
    (rest : List JStr) (i : Nat) : JStr :=
  match outcomes (k + i / 100) with
  | none => rest.getD i []
  | some ts =>
    if postC (k + i / 100) then rest.getD i []
    else if decide (i % 100 < ts.length) && !(ts.getD (i % 100) []).isEmpty &&
            !(trimWS (ts.getD (i % 100) [])).isEmpty
         then ts.getD (i % 100) [] else rest.getD i []

/-- Placeholder key value that disables the service. -/
def placeholderApiKey : JStr := jstr "your_openai_api_key_here"

/-- API configuration: the environment key, possibly absent. -/
structure ApiConfig where
  apiKey : Option JStr
deriving DecidableEq

/-- Guard of translateBatchStructured: a key is configured when it is present, non-empty
and different from the placeholder. -/
def keyConfigured (cfg : ApiConfig) : Bool :=
  match cfg.apiKey with
  | none => false
  | some k => !k.isEmpty && !(k == placeholderApiKey)

/-- Batch translation translateBatchStructured of optimizedAiService, over an explicit
content cache, a per-batch outcome function (none for a network, HTTP or JSON-parse
failure; some ts for a response whose extracted translations array is ts) and cancellation
observations at the two check points of each batch (preC before dispatch, postC after the
response).  Batch size is the constant 100. -/
def translateBatchStructured (cfg : ApiConfig) (st : LRUCache) (contentArray : List JStr)
    (outcomes : Nat → Option (List JStr)) (preC postC : Nat → Bool) :
    Except TranslationError (List JStr) × LRUCache :=
  if !keyConfigured cfg then
    let p := mapClean st contentArray
    (.ok p.1, p.2)
  else
    let p := mapCleanTrunc st contentArray
    (runBatchesF outcomes preC postC p.1.length 0 p.1, p.2)

/-! Result rehydration: the apply-translations step of handleBulkTranslate (OptimizedApp). -/

/-- Lookup in the translation map (a JS Map with string keys). -/
def lookupMap (m : List (JStr × JStr)) (k : JStr) : Option JStr :=
  match m.find? (fun e => e.1 == k) with
  | some e => some e.2
  | none => none

/-- Rehydration step of handleBulkTranslate: every cell with non-blank cleaned content has
both cleaned and original replaced by the translation found under its trimmed cleaned text
(with fallback to the cleaned text when the key is absent or the stored value is falsy);
blank cells pass through unchanged. -/
def applyTranslations (data : List (List CellRec)) (tmap : List (JStr × JStr)) :
    List (List CellRec) :=
  data.map fun row => row.map fun cell =>
    if !cell.cleaned.isEmpty && !(trimWS cell.cleaned).isEmpty then
      let translated :=
        match lookupMap tmap (trimWS cell.cleaned) with
        | some t => if t.isEmpty then cell.cleaned else t
        | none => cell.cleaned
      { cell with cleaned := translated, original := translated }
    else cell

/-! Dataset quality analyzer analyzeDataset of optimizedAiService. -/

/-- Statistics record of analyzeDataset. -/
structure DatasetStats where
  questionsWithAllVariants : Nat
  questionsWithCorrectAnswer : Nat
  questionsWithMissingVariants : Nat
  questionsWithInvalidCodes : Nat
  questionsWithEmptyContent : Nat
  questionsWithDuplicateVariants : Nat
  questionsWithHTML : Nat
  questionsWithEntities : Nat
deriving DecidableEq

/-- Detailed issue entry: one-based row number, issue type and severity (the free-text
description fields of the source, presentation only, are not modelled). -/
structure IssueRec where
  row : Nat
  itype : JStr
  severity : JStr
deriving DecidableEq

/-- Analysis result of analyzeDataset. -/
structure DatasetAnalysis where
  totalQuestions : Nat
  dataQuality : JStr
  statistics : DatasetStats
  detailedIssues : List IssueRec
deriving DecidableEq

/-- Access row[i] and take the cleaned field, defaulting to the empty string. -/
def cellCleanedAt (row : List CellRec) (i : Nat) : JStr :=
  match row[i]? with
  | some c => c.cleaned
  | none => []

/-- Access row[i] and take the hasHtml flag, defaulting to false. -/
def cellHasHtmlAt (row : List CellRec) (i : Nat) : Bool :=
  match row[i]? with
  | some c => c.hasHtml
  | none => false

/-- Access row[i] and take the hasEntities flag, defaulting to false. -/
def cellHasEntitiesAt (row : List CellRec) (i : Nat) : Bool :=
  match row[i]? with
  | some c => c.hasEntities
  | none => false

/-- All-zero statistics. -/
def initialStats : DatasetStats := ⟨0, 0, 0, 0, 0, 0, 0, 0⟩

/-- Per-row pass of analyzeDataset: question at column 2, variants at 3, 5, 7, 9, codes at
4, 6, 8, 10; an empty question records the issue and skips the remaining checks. -/
def analyzeRowStep (acc : DatasetStats × List IssueRec) (rowIndex : Nat)
    (row : List CellRec) : DatasetStats × List IssueRec :=
  let st := acc.1
  let issues := acc.2
  let question := cellCleanedAt row 2
  if question.isEmpty || (trimWS question).isEmpty then
    ({ st with questionsWithEmptyContent := st.questionsWithEmptyContent + 1 },
     issues ++ [⟨rowIndex + 1, jstr "Empty Question", jstr "high"⟩])
  else
    let st := if cellHasHtmlAt row 2 then
        { st with questionsWithHTML := st.questionsWithHTML + 1 } else st
    let st := if cellHasEntitiesAt row 2 then
        { st with questionsWithEntities := st.questionsWithEntities + 1 } else st
    let variants := [cellCleanedAt row 3, cellCleanedAt row 5, cellCleanedAt row 7,
      cellCleanedAt row 9]
    let codes := [cellCleanedAt row 4, cellCleanedAt row 6, cellCleanedAt row 8,
      cellCleanedAt row 10]
    let nonEmptyVariants := variants.filter (fun v => !v.isEmpty && !(trimWS v).isEmpty)
    let nonEmptyCodes := codes.filter (fun c => !c.isEmpty && !(trimWS c).isEmpty)
    let p1 : DatasetStats × List IssueRec :=
      if nonEmptyVariants.length < 4 then
        ({ st with questionsWithMissingVariants := st.questionsWithMissingVariants + 1 },
         issues ++ [⟨rowIndex + 1, jstr "Missing Variants", jstr "medium"⟩])
      else
        ({ st with questionsWithAllVariants := st.questionsWithAllVariants + 1 }, issues)
    let st := p1.1
    let issues := p1.2
    let p2 : DatasetStats × List IssueRec :=
      if nonEmptyVariants.dedup.length < nonEmptyVariants.length then
        ({ st with questionsWithDuplicateVariants := st.questionsWithDuplicateVariants + 1 },
         issues ++ [⟨rowIndex + 1, jstr "Duplicate Variants", jstr "medium"⟩])
      else (st, issues)
    let st := p2.1
    let issues := p2.2
    let validCodes := nonEmptyCodes.filter (fun c => c == jstr "0" || c == jstr "1")
    let hasCorrectAnswer := validCodes.contains (jstr "1")
    let p3 : DatasetStats × List IssueRec :=
      if !(validCodes.length == nonEmptyCodes.length) then
        ({ st with questionsWithInvalidCodes := st.questionsWithInvalidCodes + 1 },
         issues ++ [⟨rowIndex + 1, jstr "Invalid Answer Codes", jstr "high"⟩])
      else (st, issues)
    let st := p3.1
    let issues := p3.2
    let p4 : DatasetStats × List IssueRec :=
      if !hasCorrectAnswer && decide (0 < nonEmptyCodes.length) then
        (st, issues ++ [⟨rowIndex + 1, jstr "No Correct Answer", jstr "high"⟩])
      else if hasCorrectAnswer then
        ({ st with questionsWithCorrectAnswer := st.questionsWithCorrectAnswer + 1 }, issues)
      else (st, issues)
    let st := p4.1
    let issues := p4.2
    let correctAnswers := (validCodes.filter (fun c => c == jstr "1")).length
    let issues :=
      if 1 < correctAnswers then
        issues ++ [⟨rowIndex + 1, jstr "Multiple Correct Answers", jstr "medium"⟩]
      else issues
    (st, issues)

/-- Indexed fold of the per-row pass over the dataset. -/
def analyzeFold : Nat → (DatasetStats × List IssueRec) → List (List CellRec) →
    DatasetStats × List IssueRec
  | _, acc, [] => acc
  | i, acc, row :: rest => analyzeFold (i + 1) (analyzeRowStep acc i row) rest

/-- Dataset analyzer analyzeDataset of optimizedAiService.  The quality thresholds of the
source compare against 0.1 and 0.2 of the record count; they are modelled as the exact
rational comparisons. -/
def analyzeDataset (data : List (List CellRec)) : DatasetAnalysis :=
  if data.isEmpty then ⟨0, jstr "No data", initialStats, []⟩
  else
    let p := analyzeFold 0 (initialStats, []) data
    let totalIssues := p.2.length
    let highSeverity := (p.2.filter (fun i => i.severity == jstr "high")).length
    let quality :=
      if data.length < 10 * highSeverity then jstr "poor"
      else if data.length < 5 * totalIssues then jstr "fair"
      else jstr "good"
    ⟨data.length, quality, p.1, p.2⟩

/-! Auxiliary predicates and concrete data used by the verification statements. -/

/-- Invariant of the content cache: every entry was stored by the normalizer, so its key
and value both come from one string. -/
def CacheGood (st : LRUCache) : Prop :=
  ∀ e ∈ st.entries, ∃ u : JStr, e.1 = cacheKey u ∧ e.2 = cleanContentPipeline u

/-- Every whitespace unit is the plain space. -/
def allWS32 (s : JStr) : Bool := s.all (fun c => !isWS c || c == 32)

/-- No two adjacent whitespace units. -/
def noAdjWS : JStr → Bool
  | [] => true
  | [_] => true
  | c :: d :: rest => !(isWS c && isWS d) && noAdjWS (d :: rest)

/-- First unit, when present, is not whitespace. -/
def headNotWS (s : JStr) : Bool :=
  match s.head? with
  | some c => !isWS c
  | none => true

/-- Last unit, when present, is not whitespace. -/
def lastNotWS (s : JStr) : Bool :=
  match s.getLast? with
  | some c => !isWS c
  | none => true

/-- Occurrence test for a literal pattern. -/
def hasLit (pat : JStr) : JStr → Bool
  | [] => false
  | c :: rest => pat.isPrefixOf (c :: rest) || hasLit pat rest

/-- Occurrence test for a well-formed decimal numeric reference. -/
def hasDecRef : JStr → Bool
  | [] => false
  | c :: rest =>
    (c == 38 && rest.head? == some 35 && !(rest.tail.takeWhile isDigit).isEmpty &&
      (rest.tail.dropWhile isDigit).head? == some 59) || hasDecRef rest

/-- Occurrence test for a well-formed hexadecimal numeric reference. -/
def hasHexRef : JStr → Bool
  | [] => false
  | c :: rest =>
    (c == 38 && rest.head? == some 35 && rest.tail.head? == some 120 &&
      !(rest.tail.tail.takeWhile isHexDigit).isEmpty &&
      (rest.tail.tail.dropWhile isHexDigit).head? == some 59) || hasHexRef rest

/-- The string contains no well-formed numeric reference and none of the six named
entities, so every pass of the entity decoder leaves it unchanged. -/
def entityPassFree (s : JStr) : Bool :=
  !hasDecRef s && !hasHexRef s &&
  !hasLit [38, 108, 116, 59] s && !hasLit [38, 103, 116, 59] s &&
  !hasLit [38, 97, 109, 112, 59] s && !hasLit [38, 113, 117, 111, 116, 59] s &&
  !hasLit [38, 110, 98, 115, 112, 59] s && !hasLit [38, 97, 112, 111, 115, 59] s

/-- Cell holding plain text: identical original and cleaned content, no flags. -/
def plainCell (s : String) : CellRec := ⟨jstr s, jstr s, false, false, (jstr s).isEmpty⟩

/-- Record with a question, four distinct variants and exactly one correct code. -/
def completeRow : List CellRec :=
  [plainCell "id", plainCell "grp", plainCell "q", plainCell "a", plainCell "1",
   plainCell "b", plainCell "0", plainCell "c", plainCell "0", plainCell "d", plainCell "0"]

/-- Record with a non-empty question and all four variant fields empty. -/
def missingVariantsRow : List CellRec :=
  [plainCell "id", plainCell "grp", plainCell "q", plainCell "", plainCell "",
   plainCell "", plainCell "", plainCell "", plainCell "", plainCell "", plainCell ""]

/-- Record with two answer codes both equal to 1. -/
def twoCorrectRow : List CellRec :=
  [plainCell "id", plainCell "grp", plainCell "q", plainCell "a", plainCell "1",
   plainCell "b", plainCell "1", plainCell "c", plainCell "0", plainCell "d", plainCell "0"]

/-- Dataset of 10 records: exactly 2 with all variants empty, exactly 1 with two correct
codes, the others complete with a single correct code. -/
def scenarioDataset : List (List CellRec) :=
  [completeRow, completeRow, missingVariantsRow, completeRow, twoCorrectRow,
   completeRow, missingVariantsRow, completeRow, completeRow, completeRow]

/-- Sheet with 20 declared columns where only columns 0 through 10 hold non-blank values. -/
def sheet20 : List (List JStr) :=
  [(List.range 20).map (fun c => if c ≤ 10 then jstr "x" else []),
   (List.range 20).map (fun c => if c ≤ 10 then jstr "y" else [])]

/-! Helper lemmas about the batch translation engine. -/

theorem mapClean_length (st : LRUCache) (l : List JStr) :
    (mapClean st l).1.length = l.length := by
  induction l generalizing st with
  | nil => rfl
  | cons c rest ih => simp [mapClean, ih]

theorem mapCleanTrunc_length (st : LRUCache) (l : List JStr) :
    (mapCleanTrunc st l).1.length = l.length := by
  induction l generalizing st with
  | nil => rfl
  | cons c rest ih => simp [mapCleanTrunc, ih]

theorem padBatch_length (batch ts : List JStr) :
    (padBatch batch ts).length = batch.length := by
  simp [padBatch]

theorem batchResult_length (outcomes : Nat → Option (List JStr)) (postC : Nat → Bool)
    (k : Nat) (batch : List JStr) :
    (batchResult outcomes postC k batch).length = batch.length := by
  unfold batchResult
  cases outcomes k with
  | none => rfl
  | some ts =>
    by_cases h : postC k <;> simp [h, padBatch_length]

theorem padBatch_getElem? (batch ts : List JStr) (i : Nat) (h : i < batch.length) :
    (padBatch batch ts)[i]? =
      some (if decide (i < ts.length) && !(ts.getD i []).isEmpty &&
               !(trimWS (ts.getD i [])).isEmpty
            then ts.getD i [] else batch.getD i []) := by
  simp [padBatch, List.getElem?_range h]

theorem batchResult_getElem? (outcomes : Nat → Option (List JStr)) (postC : Nat → Bool)
    (k : Nat) (batch : List JStr) (i : Nat) (h : i < batch.length) :
    (batchResult outcomes postC k batch)[i]? =
      some (match outcomes k with
        | none => batch.getD i []
        | some ts =>
          if postC k then batch.getD i []
          else if decide (i < ts.length) && !(ts.getD i []).isEmpty &&
                  !(trimWS (ts.getD i [])).isEmpty
               then ts.getD i [] else batch.getD i []) := by
  unfold batchResult
  cases outcomes k with
  | none => simp [List.getElem?_eq_getElem h, List.getD_eq_getElem?_getD]
  | some ts =>
    by_cases hp : postC k
    · simp [hp, List.getElem?_eq_getElem h, List.getD_eq_getElem?_getD]
    · simp [hp, padBatch_getElem? batch ts i h]

theorem batch_block_eq (outcomes : Nat → Option (List JStr)) (postC : Nat → Bool)
    (k : Nat) (rest : List JStr) :
    batchResult outcomes postC k (rest.take 100) ++
      (List.range (rest.drop 100).length).map (slotVal outcomes postC (k + 1) (rest.drop 100)) =
    (List.range rest.length).map (slotVal outcomes postC k rest) := by
  have hblk : (batchResult outcomes postC k (rest.take 100)).length =
      min 100 rest.length := by
    rw [batchResult_length, List.length_take]
  apply List.ext_getElem?
  intro i
  by_cases hi : i < rest.length
  · by_cases hi100 : i < 100
    · have hlt : i < (batchResult outcomes postC k (rest.take 100)).length := by
        rw [hblk]; omega
      rw [List.getElem?_append_left hlt,
        batchResult_getElem? outcomes postC k _ i (by rw [List.length_take]; omega),
        List.getElem?_map, List.getElem?_range hi, Option.map_some']
      have h0 : i / 100 = 0 := Nat.div_eq_of_lt hi100
      have h1 : i % 100 = i := Nat.mod_eq_of_lt hi100
      have htake : (rest.take 100).getD i [] = rest.getD i [] := by
        simp [List.getD_eq_getElem?_getD, List.getElem?_take, hi100]
      rw [slotVal, h0, h1, Nat.add_zero, htake]
    · have hge : (batchResult outcomes postC k (rest.take 100)).length ≤ i := by
        rw [hblk]; omega
      rw [List.getElem?_append_right hge, hblk]
      obtain ⟨j, rfl⟩ : ∃ j, i = j + 100 := ⟨i - 100, by omega⟩
      have hj : j < (rest.drop 100).length := by
        rw [List.length_drop]; omega
      have hmin : j + 100 - min 100 rest.length = j := by omega
      rw [hmin, List.getElem?_map, List.getElem?_range hj, Option.map_some',
        List.getElem?_map, List.getElem?_range hi, Option.map_some']
      have hdrop : (rest.drop 100).getD j [] = rest.getD (j + 100) [] := by
        simp [List.getD_eq_getElem?_getD, List.getElem?_drop, Nat.add_comm 100 j]
      rw [slotVal, slotVal, hdrop, Nat.add_div_right j (by norm_num),
        Nat.add_mod_right j 100]
      have hk : k + 1 + j / 100 = k + (j / 100 + 1) := by omega
      rw [hk]
  · have h1 : ((List.range rest.length).map (slotVal outcomes postC k rest)).length ≤ i := by
      simp; omega
    have h2 : (batchResult outcomes postC k (rest.take 100) ++
        (List.range (rest.drop 100).length).map
          (slotVal outcomes postC (k + 1) (rest.drop 100))).length ≤ i := by
      simp [hblk]; omega
    rw [List.getElem?_eq_none h1, List.getElem?_eq_none h2]

theorem runBatchesF_ok_of_no_preC (outcomes : Nat → Option (List JStr))
    (preC postC : Nat → Bool) (hpre : ∀ j, preC j = false) :
    ∀ (f k : Nat) (rest : List JStr), rest.length ≤ f →
      runBatchesF outcomes preC postC f k rest =
        .ok ((List.range rest.length).map (slotVal outcomes postC k rest)) := by
  intro f
  induction f with
  | zero =>
    intro k rest h
    have hnil : rest = [] := List.eq_nil_of_length_eq_zero (Nat.le_zero.mp h)
    subst hnil
    rfl
  | succ f ih =>
    intro k rest h
    cases rest with
    | nil => rfl
    | cons c rest0 =>
      have hlen : ((c :: rest0).drop 100).length ≤ f := by
        rw [List.length_drop]
        simp only [List.length_cons] at h ⊢
        omega
      rw [runBatchesF, hpre k]
      · simp only [Bool.false_eq_true, if_false, ih (k + 1) _ hlen,
          batch_block_eq outcomes postC k (c :: rest0)]
      · exact fun hc => List.noConfusion hc

theorem runBatchesF_error_of_preC (outcomes : Nat → Option (List JStr))
    (preC postC : Nat → Bool) :
    ∀ (f k j : Nat) (rest : List JStr), rest.length ≤ f → preC (k + j) = true →
      100 * j < rest.length →
      runBatchesF outcomes preC postC f k rest = .error .cancelled := by
  intro f
  induction f with
  | zero => intro k j rest h hp hj; omega
  | succ f ih =>
    intro k j rest h hp hj
    cases rest with
    | nil => simp at hj
    | cons c rest0 =>
      by_cases hk : preC k
      · rw [runBatchesF, hk]
        · simp
        · exact fun hc => List.noConfusion hc
      · have hj0 : j ≠ 0 := by
          intro h0
          subst h0
          rw [Nat.add_zero] at hp
          exact hk hp
        obtain ⟨j2, rfl⟩ : ∃ j2, j = j2 + 1 := ⟨j - 1, by omega⟩
        have hrec := ih (k + 1) j2 ((c :: rest0).drop 100)
          (by rw [List.length_drop]; simp only [List.length_cons] at h ⊢; omega)
          (by rw [show k + 1 + j2 = k + (j2 + 1) by omega]; exact hp)
          (by rw [List.length_drop]; simp only [List.length_cons] at hj ⊢; omega)
        rw [runBatchesF]
        · simp only [hk, Bool.false_eq_true, if_false, hrec]
        · exact fun hc => List.noConfusion hc

/-! Claim theorems: batch translation engine. -/

/-- C10: with no API key configured (absent, empty or placeholder), the engine performs no
batch processing and returns, for every input array, the array of memoized-normalizer
outputs, index-aligned, of the same length as the input, without raising. -/
theorem translateBatch_noKey_returns_cleaned (cfg : ApiConfig) (st : LRUCache)
    (arr : List JStr) (outcomes : Nat → Option (List JStr)) (preC postC : Nat → Bool)
    (hkey : keyConfigured cfg = false) :
    (translateBatchStructured cfg st arr outcomes preC postC).1 = .ok (mapClean st arr).1 ∧
    (mapClean st arr).1.length = arr.length := by
  constructor
  · simp [translateBatchStructured, hkey]
  · exact mapClean_length st arr

/-- Witness for C10 at a concrete input: with an absent key, the single entity-laden item
is returned decoded, and nothing is raised. -/
theorem translateBatch_noKey_witness :
    (translateBatchStructured ⟨none⟩ contentCache0 [jstr "&amp;"] (fun _ => none)
        (fun _ => false) (fun _ => false)).1 = .ok [[38]] := by
  have h := translateBatch_noKey_returns_cleaned ⟨none⟩ contentCache0 [jstr "&amp;"]
    (fun _ => none) (fun _ => false) (fun _ => false) (by decide)
  rw [h.1]
  decide

/-- C1: with a configured key and no cancellation, the engine returns an array of exactly
the input length with no missing entry: slot i of a parsed batch holds the parsed
translation when present and non-blank and the pre-cleaned (possibly truncated) original
otherwise, and a failed batch (outcome none) yields the pre-cleaned originals for all its
slots while later batches are still processed. -/
theorem translateBatch_shape_and_fallback (cfg : ApiConfig) (st : LRUCache)
    (arr : List JStr) (outcomes : Nat → Option (List JStr))
    (hkey : keyConfigured cfg = true) :
    ∃ r : List JStr,
      (translateBatchStructured cfg st arr outcomes (fun _ => false) (fun _ => false)).1 =
        .ok r ∧
      r.length = arr.length ∧
      ∀ i, i < arr.length →
        r[i]? = some
          (match outcomes (i / 100) with
           | none => (mapCleanTrunc st arr).1.getD i []
           | some ts =>
             if decide (i % 100 < ts.length) && !(ts.getD (i % 100) []).isEmpty &&
                !(trimWS (ts.getD (i % 100) [])).isEmpty
             then ts.getD (i % 100) [] else (mapCleanTrunc st arr).1.getD i []) := by
  refine ⟨(List.range (mapCleanTrunc st arr).1.length).map
      (slotVal outcomes (fun _ => false) 0 (mapCleanTrunc st arr).1), ?_, ?_, ?_⟩
  · simp only [translateBatchStructured, hkey, Bool.not_true, Bool.false_eq_true, if_false]
    exact runBatchesF_ok_of_no_preC outcomes _ _ (fun _ => rfl) _ 0 _ le_rfl
  · simp [mapCleanTrunc_length]
  · intro i hi
    have hi2 : i < (mapCleanTrunc st arr).1.length := by
      rw [mapCleanTrunc_length]; exact hi
    rw [List.getElem?_map, List.getElem?_range hi2, Option.map_some']
    rw [slotVal, Nat.zero_add]
    cases outcomes (i / 100) with
    | none => rfl
    | some ts => simp

/-- Witness for C1 at a concrete input: two items, one parsed translation, the second slot
falls back to the cleaned original. -/
theorem translateBatch_shape_witness :
    ∃ r : List JStr,
      (translateBatchStructured ⟨some (jstr "k")⟩ contentCache0 [jstr "a", jstr "b"]
          (fun _ => some [jstr "T"]) (fun _ => false) (fun _ => false)).1 = .ok r ∧
      r.length = 2 ∧ r[0]? = some (jstr "T") ∧ r[1]? = some (jstr "b") := by
  obtain ⟨r, h1, h2, h3⟩ := translateBatch_shape_and_fallback ⟨some (jstr "k")⟩
    contentCache0 [jstr "a", jstr "b"] (fun _ => some [jstr "T"]) (by decide)
  refine ⟨r, h1, by simpa using h2, ?_, ?_⟩
  · rw [h3 0 (by decide)]
    decide
  · rw [h3 1 (by decide)]
    decide

/-- C2 (amended): the engine checks cancellation before dispatching each batch and after
each response.  A pre-dispatch observation stops all further processing and raises the
cancellation error.  A post-response observation, however, is thrown inside the per-batch
try and absorbed by its catch: that batch falls back to the pre-cleaned originals and,
when no pre-dispatch check fires, the call returns a full-shaped value. -/
theorem translateBatch_cancellation (cfg : ApiConfig) (st : LRUCache) (arr : List JStr)
    (outcomes : Nat → Option (List JStr)) (preC postC : Nat → Bool)
    (hkey : keyConfigured cfg = true) :
    ((∃ k, preC k = true ∧ 100 * k < arr.length) →
      (translateBatchStructured cfg st arr outcomes preC postC).1 = .error .cancelled) ∧
    ((∀ k, preC k = false) →
      ∃ r, (translateBatchStructured cfg st arr outcomes preC postC).1 = .ok r ∧
        r.length = arr.length ∧
        ∀ i, i < arr.length → postC (i / 100) = true →
          r[i]? = some ((mapCleanTrunc st arr).1.getD i [])) := by
  constructor
  · rintro ⟨k, hk, hkl⟩
    simp only [translateBatchStructured, hkey, Bool.not_true, Bool.false_eq_true, if_false]
    exact runBatchesF_error_of_preC outcomes preC postC _ 0 k _ le_rfl
      (by rw [Nat.zero_add]; exact hk) (by rw [mapCleanTrunc_length]; exact hkl)
  · intro hpre
    refine ⟨(List.range (mapCleanTrunc st arr).1.length).map
        (slotVal outcomes postC 0 (mapCleanTrunc st arr).1), ?_, ?_, ?_⟩
    · simp only [translateBatchStructured, hkey, Bool.not_true, Bool.false_eq_true, if_false]
      exact runBatchesF_ok_of_no_preC outcomes preC postC hpre _ 0 _ le_rfl
    · simp [mapCleanTrunc_length]
    · intro i hi hpost
      have hi2 : i < (mapCleanTrunc st arr).1.length := by
        rw [mapCleanTrunc_length]; exact hi
      rw [List.getElem?_map, List.getElem?_range hi2, Option.map_some']
      rw [slotVal, Nat.zero_add]
      cases outcomes (i / 100) with
      | none => rfl
      | some ts => rw [hpost]; simp

/-- Counterexample to C2 as stated: cancellation observed only at the post-response check
of the final batch is swallowed by the per-batch catch, so the call returns a full result
value (the batch falling back to its original) instead of raising the cancellation
error. -/
theorem translateBatch_cancellation_counterexample :
    (translateBatchStructured ⟨some (jstr "k")⟩ contentCache0 [jstr "a"]
        (fun _ => some [jstr "T"]) (fun _ => false) (fun _ => true)).1 = .ok [jstr "a"] ∧
    (translateBatchStructured ⟨some (jstr "k")⟩ contentCache0 [jstr "a"]
        (fun _ => some [jstr "T"]) (fun _ => false) (fun _ => true)).1 ≠
      .error .cancelled := by
  decide

/-- Witness for C2 at a concrete input: a pre-dispatch observation raises. -/
theorem translateBatch_cancellation_witness :
    (translateBatchStructured ⟨some (jstr "k")⟩ contentCache0 [jstr "a"]
        (fun _ => some [jstr "T"]) (fun _ => true) (fun _ => false)).1 =
      .error .cancelled :=
  (translateBatch_cancellation ⟨some (jstr "k")⟩ contentCache0 [jstr "a"]
    (fun _ => some [jstr "T"]) (fun _ => true) (fun _ => false) (by decide)).1
    ⟨0, rfl, by decide⟩

/-! Helper lemmas about the cache key and the content cache. -/

theorem digitsVal_natDigitsAux : ∀ (f n : Nat), n < 10 ^ f →
    digitsVal (natDigitsAux f n) = n := by
  intro f
  induction f with
  | zero =>
    intro n h
    simp only [pow_zero, Nat.lt_one_iff] at h
    subst h
    rfl
  | succ f ih =>
    intro n h
    by_cases h10 : n < 10
    · rw [natDigitsAux, if_pos h10]
      simp [digitsVal]
    · have hdiv : n / 10 < 10 ^ f := by
        rw [Nat.div_lt_iff_lt_mul (by norm_num)]
        calc n < 10 ^ (f + 1) := h
        _ = 10 ^ f * 10 := by ring
      have happ : digitsVal (natDigitsAux f (n / 10) ++ [48 + n % 10]) =
          digitsVal (natDigitsAux f (n / 10)) * 10 + (48 + n % 10 - 48) := by
        simp [digitsVal, List.foldl_append]
      rw [natDigitsAux, if_neg h10, happ, ih _ hdiv]
      omega

theorem digitsVal_natDigits (n : Nat) : digitsVal (natDigits n) = n := by
  apply digitsVal_natDigitsAux
  calc n < 10 ^ n := Nat.lt_pow_self (by norm_num) n
  _ ≤ 10 ^ (n + 1) := Nat.pow_le_pow_right (by norm_num) (Nat.le_succ n)

theorem natDigits_inj {a b : Nat} (h : natDigits a = natDigits b) : a = b := by
  have h2 := congrArg digitsVal h
  rwa [digitsVal_natDigits, digitsVal_natDigits] at h2

theorem natDigitsAux_ne95 : ∀ (f n c : Nat), c ∈ natDigitsAux f n → c ≠ 95 := by
  intro f
  induction f with
  | zero => intro n c hc; simp [natDigitsAux] at hc
  | succ f ih =>
    intro n c hc
    rw [natDigitsAux] at hc
    by_cases h10 : n < 10
    · rw [if_pos h10] at hc
      simp at hc
      omega
    · rw [if_neg h10] at hc
      rcases List.mem_append.mp hc with h1 | h1
      · exact ih _ _ h1
      · simp at h1
        have hm : n % 10 < 10 := Nat.mod_lt _ (by norm_num)
        omega

theorem split_at_95 : ∀ (d1 : List Nat) {d2 p1 p2 : List Nat},
    (∀ c ∈ d1, c ≠ 95) → (∀ c ∈ d2, c ≠ 95) →
    d1 ++ 95 :: p1 = d2 ++ 95 :: p2 → d1 = d2 ∧ p1 = p2 := by
  intro d1
  induction d1 with
  | nil =>
    intro d2 p1 p2 h1 h2 heq
    cases d2 with
    | nil =>
      simp only [List.nil_append, List.cons.injEq] at heq
      exact ⟨rfl, heq.2⟩
    | cons x d2 =>
      simp only [List.nil_append, List.cons_append, List.cons.injEq] at heq
      exact absurd heq.1.symm (h2 x (by simp))
  | cons x d1 ih =>
    intro d2 p1 p2 h1 h2 heq
    cases d2 with
    | nil =>
      simp only [List.cons_append, List.nil_append, List.cons.injEq] at heq
      exact absurd heq.1 (h1 x (by simp))
    | cons y d2 =>
      simp only [List.cons_append, List.cons.injEq] at heq
      obtain ⟨hxy, heq2⟩ := heq
      obtain ⟨hd, hp⟩ := ih (fun c hc => h1 c (by simp [hc]))
        (fun c hc => h2 c (by simp [hc])) heq2
      exact ⟨by rw [hxy, hd], hp⟩

theorem cacheKey_inj {u s : JStr} (h : cacheKey u = cacheKey s) (hs : s.length ≤ 20) :
    u = s := by
  unfold cacheKey at h
  simp only [List.append_assoc, List.singleton_append] at h
  have h2 := List.append_cancel_left h
  obtain ⟨hd, hp⟩ := split_at_95 (natDigits u.length)
    (fun c hc => natDigitsAux_ne95 _ _ c hc)
    (fun c hc => natDigitsAux_ne95 _ _ c hc) h2
  have hlen : u.length = s.length := natDigits_inj hd
  have hu20 : u.length ≤ 20 := by omega
  rw [List.take_of_length_le hu20, List.take_of_length_le hs] at hp
  exact hp

theorem mem_get_entries {st : LRUCache} {k : JStr} {e : JStr × JStr}
    (he : e ∈ (LRUCache.get st k).2.entries) : e ∈ st.entries := by
  unfold LRUCache.get at he
  cases hf : st.entries.find? (fun x => x.1 == k) with
  | none => rw [hf] at he; exact he
  | some e0 =>
    rw [hf] at he
    simp only at he
    rcases List.mem_append.mp he with h1 | h1
    · exact (List.mem_filter.mp h1).1
    · have hk : e0.1 = k := by
        have := List.find?_some hf
        exact beq_iff_eq.mp this
      have he0 : e = e0 := by
        rcases List.mem_singleton.mp h1 with h2
        rw [h2, ← hk]
      rw [he0]
      exact List.mem_of_find?_eq_some hf

theorem mem_set_entries {st : LRUCache} {k v : JStr} {e : JStr × JStr}
    (he : e ∈ (LRUCache.set st k v).entries) : e ∈ st.entries ∨ e = (k, v) := by
  unfold LRUCache.set at he
  split at he
  · simp only at he
    rcases List.mem_append.mp he with h1 | h1
    · exact Or.inl (List.mem_filter.mp h1).1
    · exact Or.inr (List.mem_singleton.mp h1)
  · split at he
    · simp only at he
      rcases List.mem_append.mp he with h1 | h1
      · exact Or.inl (List.mem_of_mem_tail h1)
      · exact Or.inr (List.mem_singleton.mp h1)
    · simp only at he
      rcases List.mem_append.mp he with h1 | h1
      · exact Or.inl h1
      · exact Or.inr (List.mem_singleton.mp h1)

theorem cacheGood_clean_step {st : LRUCache} (h : CacheGood st) (x : JStr) :
    CacheGood (cleanContentForTranslation st x).2 := by
  intro e he
  unfold cleanContentForTranslation at he
  by_cases hx : x.isEmpty
  · rw [if_pos hx] at he
    exact h e he
  · rw [if_neg hx] at he
    rcases hget : LRUCache.get st (cacheKey x) with ⟨vo, st1⟩
    rw [hget] at he
    have hsub : ∀ e2 : JStr × JStr, e2 ∈ st1.entries → e2 ∈ st.entries := by
      intro e2 he2
      exact mem_get_entries (k := cacheKey x) (by rw [hget]; exact he2)
    cases vo with
    | none =>
      simp only at he
      rcases mem_set_entries he with h1 | h1
      · exact h e (hsub e h1)
      · exact ⟨x, by rw [h1], by rw [h1]⟩
    | some v =>
      simp only at he
      by_cases hv : v.isEmpty
      · rw [if_pos hv] at he
        simp only at he
        rcases mem_set_entries he with h1 | h1
        · exact h e (hsub e h1)
        · exact ⟨x, by rw [h1], by rw [h1]⟩
      · rw [if_neg hv] at he
        simp only at he
        exact h e (hsub e he)

theorem cacheGood_of_reachable {st : LRUCache} (h : ContentCacheReachable st) :
    CacheGood st := by
  induction h with
  | empty => intro e he; simp [contentCache0] at he
  | step st x _ ih => exact cacheGood_clean_step ih x
  | clear st _ _ => intro e he; simp at he

theorem cleanContentForTranslation_eq_pipeline {st : LRUCache} (h : CacheGood st)
    (s : JStr) (hs : s.length ≤ 20) :
    (cleanContentForTranslation st s).1 = cleanContentPipeline s := by
  unfold cleanContentForTranslation
  by_cases hempty : s.isEmpty
  · rw [if_pos hempty]
    have hnil : s = [] := List.isEmpty_iff.mp hempty
    subst hnil
    rfl
  · rw [if_neg hempty]
    cases hf : st.entries.find? (fun e => e.1 == cacheKey s) with
    | none => simp only [LRUCache.get, hf]
    | some e =>
      simp only [LRUCache.get, hf]
      obtain ⟨u, hu1, hu2⟩ := h e (List.mem_of_find?_eq_some hf)
      have hk : e.1 = cacheKey s := by
        have := List.find?_some hf
        exact beq_iff_eq.mp this
      have hus : u = s := cacheKey_inj (by rw [← hu1, hk]) hs
      by_cases he2 : e.2.isEmpty
      · rw [if_pos he2]
      · rw [if_neg he2]
        simp only
        rw [hu2, hus]

/-! Claim theorems: memoized normalizer versus pure pipeline. -/

/-- C4 (amended): for every reachable state of the content cache and every input of at
most 20 code units (where the cache key, built from the length and the 20-unit prefix,
determines the content), the memoized normalizer agrees with the pure uncached cleaning
pipeline. -/
theorem cleanContent_cached_eq_pure (st : LRUCache) (h : ContentCacheReachable st)
    (s : JStr) (hs : s.length ≤ 20) :
    (cleanContentForTranslation st s).1 = cleanContentPipeline s :=
  cleanContentForTranslation_eq_pipeline (cacheGood_of_reachable h) s hs

/-- Counterexample to C4 as stated: two distinct 21-unit strings share the cache key
(same length, same 20-unit prefix), so in the reachable state left by cleaning the first,
the memoized normalizer returns the value of the first for the second, differing from the
pure pipeline. -/
theorem cleanContent_cached_counterexample :
    (cleanContentForTranslation
        (cleanContentForTranslation contentCache0 (jstr "aaaaaaaaaaaaaaaaaaaaX")).2
        (jstr "aaaaaaaaaaaaaaaaaaaaY")).1 ≠
      cleanContentPipeline (jstr "aaaaaaaaaaaaaaaaaaaaY") := by
  decide

/-- Witness for C4 at a concrete input: on the empty cache, a short entity-laden string
cleans identically with and without the cache. -/
theorem cleanContent_cached_witness :
    (cleanContentForTranslation contentCache0 (jstr "a&amp;b")).1 =
      cleanContentPipeline (jstr "a&amp;b") :=
  cleanContent_cached_eq_pure contentCache0 ContentCacheReachable.empty (jstr "a&amp;b")
    (by decide)

/-! Helper lemmas about the cleaning pipeline fixed points. -/

theorem replaceLitF_id_of_head_not_mem (a : Nat) (pr rep : JStr) :
    ∀ (f : Nat) (s : JStr), a ∉ s → replaceLitF f (a :: pr) rep s = s := by
  intro f
  induction f with
  | zero => intro s _; rfl
  | succ f ih =>
    intro s hs
    cases s with
    | nil => rfl
    | cons c rest =>
      have hne : ¬ (a :: pr).isPrefixOf (c :: rest) = true := by
        intro hp
        have hpre := List.isPrefixOf_iff_prefix.mp hp
        have hac : a = c := (List.cons_prefix_cons.mp hpre).1
        exact hs (by rw [hac]; exact List.mem_cons_self c rest)
      rw [replaceLitF, if_neg hne, ih rest (fun hm => hs (List.mem_cons_of_mem c hm))]

theorem decPassF_id_of_not_mem : ∀ (f : Nat) (s : JStr), 38 ∉ s → decPassF f s = s := by
  intro f
  induction f with
  | zero => intro s _; rfl
  | succ f ih =>
    intro s hs
    cases s with
    | nil => rfl
    | cons c rest =>
      have hc : (c == 38) = false := by
        rw [beq_eq_false_iff_ne]
        intro h
        exact hs (by rw [h]; exact List.mem_cons_self _ _)
      rw [decPassF, hc]
      simp only [Bool.false_and, Bool.false_eq_true, if_false]
      rw [ih rest (fun hm => hs (List.mem_cons_of_mem c hm))]

theorem stripTagsF_id_of_not_mem : ∀ (f : Nat) (s : JStr), 60 ∉ s → stripTagsF f s = s := by
  intro f
  induction f with
  | zero => intro s _; rfl
  | succ f ih =>
    intro s hs
    cases s with
    | nil => rfl
    | cons c rest =>
      have hc : (c == 60) = false := by
        rw [beq_eq_false_iff_ne]
        intro h
        exact hs (by rw [h]; exact List.mem_cons_self _ _)
      rw [stripTagsF, hc]
      simp only [Bool.false_and, Bool.false_eq_true, if_false]
      rw [ih rest (fun hm => hs (List.mem_cons_of_mem c hm))]

theorem length_dropWhile_le (p : Nat → Bool) (l : List Nat) :
    (l.dropWhile p).length ≤ l.length :=
  (List.dropWhile_sublist p).length_le

theorem allWS32_cons (c : Nat) (rest : JStr) :
    allWS32 (c :: rest) = ((!isWS c || c == 32) && allWS32 rest) := by
  simp [allWS32]

theorem noAdjWS_tail {c : Nat} {rest : JStr} (h : noAdjWS (c :: rest) = true) :
    noAdjWS rest = true := by
  cases rest with
  | nil => rfl
  | cons d r2 =>
    simp only [noAdjWS, Bool.and_eq_true] at h
    exact h.2

theorem collapseWSF_id_of_normal : ∀ (f : Nat) (s : JStr),
    allWS32 s = true → noAdjWS s = true → collapseWSF f s = s := by
  intro f
  induction f with
  | zero => intro s _ _; rfl
  | succ f ih =>
    intro s h32 hadj
    cases s with
    | nil => rfl
    | cons c rest =>
      simp only [allWS32, List.all_cons, Bool.and_eq_true] at h32
      by_cases hws : isWS c = true
      · have hc32 : c = 32 := by
          rcases Bool.or_eq_true_iff.mp h32.1 with h1 | h1
          · rw [hws] at h1; simp at h1
          · exact beq_iff_eq.mp h1
        rw [collapseWSF, if_pos hws]
        have hrest : rest.dropWhile isWS = rest := by
          cases rest with
          | nil => rfl
          | cons d rest2 =>
            have hd : isWS d = false := by
              simp only [noAdjWS, Bool.and_eq_true] at hadj
              have := hadj.1
              rw [hws] at this
              simpa using this
            rw [List.dropWhile_cons_of_neg (by simp [hd])]
        rw [hrest, hc32]
        exact congrArg (32 :: ·)
          (ih rest (by simpa [allWS32] using h32.2) (noAdjWS_tail hadj))
      · rw [collapseWSF, if_neg hws]
        exact congrArg (c :: ·)
          (ih rest (by simpa [allWS32] using h32.2) (noAdjWS_tail hadj))

theorem collapseWSF_allWS32 : ∀ (f : Nat) (s : JStr), s.length ≤ f →
    allWS32 (collapseWSF f s) = true := by
  intro f
  induction f with
  | zero =>
    intro s h
    have hnil : s = [] := List.eq_nil_of_length_eq_zero (Nat.le_zero.mp h)
    subst hnil
    rfl
  | succ f ih =>
    intro s h
    cases s with
    | nil => rfl
    | cons c rest =>
      simp only [List.length_cons] at h
      by_cases hws : isWS c = true
      · rw [collapseWSF, if_pos hws]
        have hlen : (rest.dropWhile isWS).length ≤ f :=
          le_trans (length_dropWhile_le _ _) (by omega)
        rw [allWS32_cons, ih _ hlen]
        simp
      · rw [collapseWSF, if_neg hws]
        rw [allWS32_cons, ih rest (by omega)]
        simp [hws]

theorem dropWhile_headNotWS (s : JStr) : headNotWS (s.dropWhile isWS) = true := by
  induction s with
  | nil => rfl
  | cons c rest ih =>
    by_cases h : isWS c = true
    · rw [List.dropWhile_cons_of_pos h]
      exact ih
    · rw [List.dropWhile_cons_of_neg (by simp [h])]
      simp only [headNotWS, List.head?_cons]
      simpa using h

theorem collapseWSF_headNotWS (f : Nat) (s : JStr) (h : headNotWS s = true) :
    headNotWS (collapseWSF f s) = true := by
  cases f with
  | zero => exact h
  | succ f =>
    cases s with
    | nil => rfl
    | cons c rest =>
      have hc : isWS c = false := by
        simpa [headNotWS] using h
      rw [collapseWSF, if_neg (by simp [hc])]
      simp [headNotWS, hc]

theorem collapseWSF_noAdjWS : ∀ (f : Nat) (s : JStr), s.length ≤ f →
    noAdjWS (collapseWSF f s) = true := by
  intro f
  induction f with
  | zero =>
    intro s h
    have hnil : s = [] := List.eq_nil_of_length_eq_zero (Nat.le_zero.mp h)
    subst hnil
    rfl
  | succ f ih =>
    intro s h
    cases s with
    | nil => rfl
    | cons c rest =>
      simp only [List.length_cons] at h
      by_cases hws : isWS c = true
      · rw [collapseWSF, if_pos hws]
        have hlen : (rest.dropWhile isWS).length ≤ f :=
          le_trans (length_dropWhile_le _ _) (by omega)
        have hX := ih _ hlen
        have hhead := collapseWSF_headNotWS f (rest.dropWhile isWS) (dropWhile_headNotWS rest)
        cases hXdef : collapseWSF f (rest.dropWhile isWS) with
        | nil => rfl
        | cons d X2 =>
          rw [hXdef] at hX hhead
          have hd : isWS d = false := by simpa [headNotWS] using hhead
          simp [noAdjWS, hd, hX]
      · rw [collapseWSF, if_neg hws]
        have hX := ih rest (by omega)
        cases hXdef : collapseWSF f rest with
        | nil => rfl
        | cons d X2 =>
          rw [hXdef] at hX
          have hc : isWS c = false := by simpa using hws
          simp [noAdjWS, hc, hX]

theorem allWS32_dropWhile {s : JStr} (h : allWS32 s = true) :
    allWS32 (s.dropWhile isWS) = true := by
  rw [allWS32, List.all_eq_true] at h ⊢
  exact fun x hx => h x (List.dropWhile_subset _ hx)

theorem noAdjWS_dropWhile {s : JStr} (h : noAdjWS s = true) :
    noAdjWS (s.dropWhile isWS) = true := by
  induction s with
  | nil => rfl
  | cons c rest ih =>
    by_cases hc : isWS c = true
    · rw [List.dropWhile_cons_of_pos hc]
      exact ih (noAdjWS_tail h)
    · rw [List.dropWhile_cons_of_neg (by simp [hc])]
      exact h

theorem allWS32_dropTrailingWS {s : JStr} (h : allWS32 s = true) :
    allWS32 (dropTrailingWS s) = true := by
  induction s with
  | nil => rfl
  | cons c rest ih =>
    simp only [allWS32, List.all_cons, Bool.and_eq_true] at h
    rw [dropTrailingWS]
    by_cases hcond : ((dropTrailingWS rest).isEmpty && isWS c) = true
    · rw [if_pos hcond]; rfl
    · rw [if_neg hcond]
      simp only [allWS32, List.all_cons, Bool.and_eq_true]
      exact ⟨h.1, by simpa [allWS32] using ih (by simpa [allWS32] using h.2)⟩

theorem dropTrailingWS_head? (s : JStr) :
    dropTrailingWS s = [] ∨ (dropTrailingWS s).head? = s.head? := by
  cases s with
  | nil => exact Or.inl rfl
  | cons c rest =>
    rw [dropTrailingWS]
    by_cases h : ((dropTrailingWS rest).isEmpty && isWS c) = true
    · rw [if_pos h]; exact Or.inl rfl
    · rw [if_neg h]; exact Or.inr rfl

theorem noAdjWS_dropTrailingWS {s : JStr} (h : noAdjWS s = true) :
    noAdjWS (dropTrailingWS s) = true := by
  induction s with
  | nil => rfl
  | cons c rest ih =>
    have hrest : noAdjWS rest = true := noAdjWS_tail h
    rw [dropTrailingWS]
    by_cases hc : ((dropTrailingWS rest).isEmpty && isWS c) = true
    · rw [if_pos hc]; rfl
    · rw [if_neg hc]
      cases hdef : dropTrailingWS rest with
      | nil => rfl
      | cons d X =>
        have ihr := ih hrest
        rw [hdef] at ihr
        rcases dropTrailingWS_head? rest with h1 | h1
        · rw [hdef] at h1; exact absurd h1 (by simp)
        · rw [hdef] at h1
          cases rest with
          | nil => simp at h1
          | cons d2 rest2 =>
            have hdd : d = d2 := by simpa using h1
            have hcd : (!(isWS c && isWS d2)) = true := by
              simp only [noAdjWS, Bool.and_eq_true] at h
              exact h.1
            simp only [noAdjWS, Bool.and_eq_true]
            refine ⟨by rw [hdd]; exact hcd, ihr⟩

theorem dropTrailingWS_lastNotWS (s : JStr) : lastNotWS (dropTrailingWS s) = true := by
  induction s with
  | nil => rfl
  | cons c rest ih =>
    rw [dropTrailingWS]
    by_cases hc : ((dropTrailingWS rest).isEmpty && isWS c) = true
    · rw [if_pos hc]; rfl
    · rw [if_neg hc]
      cases hdef : dropTrailingWS rest with
      | nil =>
        have hcw : isWS c = false := by
          rw [hdef] at hc
          simpa using hc
        simp [lastNotWS, hcw]
      | cons d X =>
        rw [hdef] at ih
        simpa [lastNotWS, List.getLast?_cons_cons] using ih

theorem dropWhile_id_of_headNotWS {s : JStr} (h : headNotWS s = true) :
    s.dropWhile isWS = s := by
  cases s with
  | nil => rfl
  | cons c rest =>
    have hc : isWS c = false := by simpa [headNotWS] using h
    rw [List.dropWhile_cons_of_neg (by simp [hc])]

theorem dropTrailingWS_id_of_lastNotWS : ∀ {s : JStr}, lastNotWS s = true →
    dropTrailingWS s = s := by
  intro s
  induction s with
  | nil => intro _; rfl
  | cons c rest ih =>
    intro h
    cases rest with
    | nil =>
      have hc : isWS c = false := by simpa [lastNotWS] using h
      rw [dropTrailingWS]
      simp [dropTrailingWS, hc]
    | cons d rest2 =>
      have hr : dropTrailingWS (d :: rest2) = d :: rest2 :=
        ih (by simpa [lastNotWS, List.getLast?_cons_cons] using h)
      rw [dropTrailingWS, hr]
      simp

theorem trimWS_allWS32 {s : JStr} (h : allWS32 s = true) : allWS32 (trimWS s) = true :=
  allWS32_dropTrailingWS (allWS32_dropWhile h)

theorem trimWS_noAdjWS {s : JStr} (h : noAdjWS s = true) : noAdjWS (trimWS s) = true :=
  noAdjWS_dropTrailingWS (noAdjWS_dropWhile h)

theorem trimWS_headNotWS (s : JStr) : headNotWS (trimWS s) = true := by
  unfold trimWS
  rcases dropTrailingWS_head? (s.dropWhile isWS) with h | h
  · rw [h]; rfl
  · have h2 := dropWhile_headNotWS s
    rw [headNotWS, h] at *
    exact h2

theorem trimWS_lastNotWS (s : JStr) : lastNotWS (trimWS s) = true :=
  dropTrailingWS_lastNotWS _

theorem trimWS_id_of_edges {s : JStr} (h1 : headNotWS s = true) (h2 : lastNotWS s = true) :
    trimWS s = s := by
  unfold trimWS
  rw [dropWhile_id_of_headNotWS h1, dropTrailingWS_id_of_lastNotWS h2]

theorem trim_collapse_fixed (X : JStr) :
    collapseWS (trimWS (collapseWS X)) = trimWS (collapseWS X) ∧
    trimWS (trimWS (collapseWS X)) = trimWS (collapseWS X) := by
  have h32 : allWS32 (trimWS (collapseWS X)) = true :=
    trimWS_allWS32 (collapseWSF_allWS32 X.length X le_rfl)
  have hadj : noAdjWS (trimWS (collapseWS X)) = true :=
    trimWS_noAdjWS (collapseWSF_noAdjWS X.length X le_rfl)
  constructor
  · exact collapseWSF_id_of_normal _ _ h32 hadj
  · exact trimWS_id_of_edges (trimWS_headNotWS _) (trimWS_lastNotWS _)

/-! Claim theorems: idempotence of the cleaning pipeline. -/

/-- C7 (amended): re-cleaning is a no-op for every string whose cleaned form contains no
ampersand and no left angle bracket; in general the pipeline is not idempotent, because
decoding can uncover a numeric reference, a named entity or a tag that only the second
pass would rewrite. -/
theorem cleanContentPipeline_idem (s : JStr)
    (h38 : 38 ∉ cleanContentPipeline s) (h60 : 60 ∉ cleanContentPipeline s) :
    cleanContentPipeline (cleanContentPipeline s) = cleanContentPipeline s := by
  have hdec : decPass (cleanContentPipeline s) = cleanContentPipeline s :=
    decPassF_id_of_not_mem _ _ h38
  have hid : ∀ (pr rep : JStr),
      replaceLit (38 :: pr) rep (cleanContentPipeline s) = cleanContentPipeline s :=
    fun pr rep => replaceLitF_id_of_head_not_mem 38 pr rep _ _ h38
  have hnamed : namedChain (cleanContentPipeline s) = cleanContentPipeline s := by
    unfold namedChain
    simp only [hid]
  have hstrip : stripTags (cleanContentPipeline s) = cleanContentPipeline s :=
    stripTagsF_id_of_not_mem _ _ h60
  have hfix := trim_collapse_fixed (stripTags (namedChain (decPass s)))
  calc cleanContentPipeline (cleanContentPipeline s)
      = trimWS (collapseWS (stripTags (namedChain (decPass (cleanContentPipeline s))))) :=
        rfl
    _ = trimWS (collapseWS (cleanContentPipeline s)) := by rw [hdec, hnamed, hstrip]
    _ = trimWS (cleanContentPipeline s) := by
        show trimWS (collapseWS (trimWS (collapseWS _))) = _
        rw [hfix.1]
        rfl
    _ = cleanContentPipeline s := hfix.2

/-- Counterexample to C7 as stated: the cleaned form of the amp-entity followed by a
numeric-reference body is a decimal reference, which a second cleaning decodes, so
normalization is not idempotent. -/
theorem cleanContentPipeline_idem_counterexample :
    cleanContentPipeline (cleanContentPipeline (jstr "&amp;#65;")) ≠
      cleanContentPipeline (jstr "&amp;#65;") := by
  decide

/-- Witness for C7 at a concrete input: plain text cleans to itself on re-cleaning. -/
theorem cleanContentPipeline_idem_witness :
    cleanContentPipeline (cleanContentPipeline (jstr "hi  there")) =
      cleanContentPipeline (jstr "hi  there") :=
  cleanContentPipeline_idem (jstr "hi  there") (by decide) (by decide)

/-! Helper lemmas about the entity decoder. -/

theorem decPassF_fuel : ∀ (f1 f2 : Nat) (s : JStr), s.length ≤ f1 → s.length ≤ f2 →
    decPassF f1 s = decPassF f2 s := by
  intro f1
  induction f1 with
  | zero =>
    intro f2 s h1 _
    have hnil : s = [] := List.eq_nil_of_length_eq_zero (Nat.le_zero.mp h1)
    subst hnil
    cases f2 <;> rfl
  | succ f1 ih =>
    intro f2 s h1 h2
    cases s with
    | nil => cases f2 <;> rfl
    | cons c rest =>
      cases f2 with
      | zero => simp at h2
      | succ f2 =>
        simp only [List.length_cons] at h1 h2
        rw [decPassF, decPassF]
        by_cases hcond : (c == 38 && rest.head? == some 35 &&
            !(rest.tail.takeWhile isDigit).isEmpty &&
            (rest.tail.dropWhile isDigit).head? == some 59) = true
        · rw [if_pos hcond, if_pos hcond]
          congr 1
          have e1 : ((rest.tail.dropWhile isDigit).tail).length =
              (rest.tail.dropWhile isDigit).length - 1 := List.length_tail _
          have e2 : (rest.tail.dropWhile isDigit).length ≤ rest.tail.length :=
            length_dropWhile_le _ _
          have e3 : rest.tail.length = rest.length - 1 := List.length_tail _
          exact ih f2 _ (by omega) (by omega)
        · rw [if_neg hcond, if_neg hcond]
          congr 1
          exact ih f2 rest (by omega) (by omega)

theorem hexPassF_fuel : ∀ (f1 f2 : Nat) (s : JStr), s.length ≤ f1 → s.length ≤ f2 →
    hexPassF f1 s = hexPassF f2 s := by
  intro f1
  induction f1 with
  | zero =>
    intro f2 s h1 _
    have hnil : s = [] := List.eq_nil_of_length_eq_zero (Nat.le_zero.mp h1)
    subst hnil
    cases f2 <;> rfl
  | succ f1 ih =>
    intro f2 s h1 h2
    cases s with
    | nil => cases f2 <;> rfl
    | cons c rest =>
      cases f2 with
      | zero => simp at h2
      | succ f2 =>
        simp only [List.length_cons] at h1 h2
        rw [hexPassF, hexPassF]
        by_cases hcond : (c == 38 && rest.head? == some 35 &&
            rest.tail.head? == some 120 &&
            !(rest.tail.tail.takeWhile isHexDigit).isEmpty &&
            (rest.tail.tail.dropWhile isHexDigit).head? == some 59) = true
        · rw [if_pos hcond, if_pos hcond]
          congr 1
          have e1 : ((rest.tail.tail.dropWhile isHexDigit).tail).length =
              (rest.tail.tail.dropWhile isHexDigit).length - 1 := List.length_tail _
          have e2 : (rest.tail.tail.dropWhile isHexDigit).length ≤ rest.tail.tail.length :=
            length_dropWhile_le _ _
          have e3 : rest.tail.tail.length = rest.tail.length - 1 := List.length_tail _
          have e4 : rest.tail.length = rest.length - 1 := List.length_tail _
          exact ih f2 _ (by omega) (by omega)
        · rw [if_neg hcond, if_neg hcond]
          congr 1
          exact ih f2 rest (by omega) (by omega)

theorem decPass_ref (ds rest : JStr) (hne : ds ≠ []) (hd : ∀ c ∈ ds, isDigit c = true) :
    decPass (38 :: 35 :: (ds ++ 59 :: rest)) = digitsVal ds % 65536 :: decPass rest := by
  unfold decPass
  rw [show (38 :: 35 :: (ds ++ 59 :: rest)).length = (ds ++ 59 :: rest).length + 1 + 1
    by simp]
  rw [decPassF]
  simp only [List.tail_cons, List.head?_cons]
  have htake : List.takeWhile isDigit (ds ++ 59 :: rest) = ds := by
    rw [List.takeWhile_append_of_pos hd, List.takeWhile_cons_of_neg (by decide)]
    simp
  have hdrop : List.dropWhile isDigit (ds ++ 59 :: rest) = 59 :: rest := by
    rw [List.dropWhile_append_of_pos hd, List.dropWhile_cons_of_neg (by decide)]
  rw [htake, hdrop]
  rw [if_pos (by simp [hne])]
  simp only [List.tail_cons]
  congr 1
  apply decPassF_fuel
  · simp
    omega
  · exact le_rfl

theorem hexPass_ref (ds rest : JStr) (hne : ds ≠ []) (hd : ∀ c ∈ ds, isHexDigit c = true) :
    hexPass (38 :: 35 :: 120 :: (ds ++ 59 :: rest)) = hexVal ds % 65536 :: hexPass rest := by
  unfold hexPass
  rw [show (38 :: 35 :: 120 :: (ds ++ 59 :: rest)).length =
    (ds ++ 59 :: rest).length + 2 + 1 by simp]
  rw [hexPassF]
  simp only [List.tail_cons, List.head?_cons]
  have htake : List.takeWhile isHexDigit (ds ++ 59 :: rest) = ds := by
    rw [List.takeWhile_append_of_pos hd, List.takeWhile_cons_of_neg (by decide)]
    simp
  have hdrop : List.dropWhile isHexDigit (ds ++ 59 :: rest) = 59 :: rest := by
    rw [List.dropWhile_append_of_pos hd, List.dropWhile_cons_of_neg (by decide)]
  rw [htake, hdrop]
  rw [if_pos (by simp [hne])]
  simp only [List.tail_cons]
  congr 1
  apply hexPassF_fuel
  · simp
    omega
  · exact le_rfl

theorem decPassF_id_of_free : ∀ (f : Nat) (s : JStr), hasDecRef s = false →
    decPassF f s = s := by
  intro f
  induction f with
  | zero => intro s _; rfl
  | succ f ih =>
    intro s hfree
    cases s with
    | nil => rfl
    | cons c rest =>
      rw [hasDecRef] at hfree
      simp only [Bool.or_eq_false_iff] at hfree
      rw [decPassF, if_neg (by rw [hfree.1]; simp), ih rest hfree.2]

theorem hexPassF_id_of_free : ∀ (f : Nat) (s : JStr), hasHexRef s = false →
    hexPassF f s = s := by
  intro f
  induction f with
  | zero => intro s _; rfl
  | succ f ih =>
    intro s hfree
    cases s with
    | nil => rfl
    | cons c rest =>
      rw [hasHexRef] at hfree
      simp only [Bool.or_eq_false_iff] at hfree
      rw [hexPassF, if_neg (by rw [hfree.1]; simp), ih rest hfree.2]

theorem replaceLitF_id_of_free (pat rep : JStr) : ∀ (f : Nat) (s : JStr),
    hasLit pat s = false → replaceLitF f pat rep s = s := by
  intro f
  induction f with
  | zero => intro s _; rfl
  | succ f ih =>
    intro s hfree
    cases s with
    | nil => rfl
    | cons c rest =>
      rw [hasLit] at hfree
      simp only [Bool.or_eq_false_iff] at hfree
      rw [replaceLitF, if_neg (by rw [hfree.1]; simp), ih rest hfree.2]

theorem replaceLitF_singleton (pat rep : JStr) (hlen : 2 ≤ pat.length) (f : Nat) (v : Nat) :
    replaceLitF f pat rep [v] = [v] := by
  cases f with
  | zero => rfl
  | succ f =>
    have hpre : ¬ pat.isPrefixOf [v] = true := by
      intro hp
      have := (List.isPrefixOf_iff_prefix.mp hp).length_le
      simp at this
      omega
    rw [replaceLitF, if_neg hpre]
    cases f <;> rfl

theorem namedChain_singleton (v : Nat) : namedChain [v] = [v] := by
  unfold namedChain replaceLit
  rw [replaceLitF_singleton _ _ (by decide), replaceLitF_singleton _ _ (by decide),
    replaceLitF_singleton _ _ (by decide), replaceLitF_singleton _ _ (by decide),
    replaceLitF_singleton _ _ (by decide), replaceLitF_singleton _ _ (by decide)]

theorem hexPass_singleton (v : Nat) : hexPass [v] = [v] := by
  show hexPassF 1 [v] = [v]
  rw [hexPassF, if_neg (by simp)]
  rfl

/-! Claim theorems: numeric character references. -/

/-- C3 (amended): the decoder rewrites every well-formed decimal and hexadecimal numeric
reference to the single UTF-16 code unit equal to the reference value reduced modulo
2 ^ 16 (the corresponding code point exactly when the value is below 65536, the behavior
of String.fromCharCode), and a string containing no well-formed numeric reference and no
named entity, in particular one holding only malformed references, is returned unchanged
rather than raising. -/
theorem decodeHTMLEntities_numeric_refs :
    (∀ (ds rest : JStr), ds ≠ [] → (∀ c ∈ ds, isDigit c = true) →
      decPass (38 :: 35 :: (ds ++ 59 :: rest)) = digitsVal ds % 65536 :: decPass rest) ∧
    (∀ (ds rest : JStr), ds ≠ [] → (∀ c ∈ ds, isHexDigit c = true) →
      hexPass (38 :: 35 :: 120 :: (ds ++ 59 :: rest)) =
        hexVal ds % 65536 :: hexPass rest) ∧
    (∀ ds : JStr, ds ≠ [] → (∀ c ∈ ds, isDigit c = true) →
      decodeHTMLEntities (38 :: 35 :: (ds ++ [59])) = [digitsVal ds % 65536]) ∧
    (∀ s : JStr, entityPassFree s = true → decodeHTMLEntities s = s) := by
  refine ⟨decPass_ref, hexPass_ref, ?_, ?_⟩
  · intro ds hne hd
    unfold decodeHTMLEntities
    have h1 : decPass (38 :: 35 :: (ds ++ [59])) = [digitsVal ds % 65536] := by
      have := decPass_ref ds [] hne hd
      simpa using this
    rw [h1, namedChain_singleton, hexPass_singleton]
  · intro s hfree
    unfold entityPassFree at hfree
    simp only [Bool.and_eq_true, Bool.not_eq_true', Bool.not_eq_true] at hfree
    obtain ⟨⟨⟨⟨⟨⟨⟨hdec, hhex⟩, hlt⟩, hgt⟩, hamp⟩, hquot⟩, hnbsp⟩, hapos⟩ := hfree
    unfold decodeHTMLEntities
    rw [show decPass s = s from decPassF_id_of_free _ s hdec]
    rw [show namedChain s = s by
      unfold namedChain replaceLit
      rw [replaceLitF_id_of_free _ _ _ _ hlt, replaceLitF_id_of_free _ _ _ _ hgt,
        replaceLitF_id_of_free _ _ _ _ hamp, replaceLitF_id_of_free _ _ _ _ hquot,
        replaceLitF_id_of_free _ _ _ _ hnbsp, replaceLitF_id_of_free _ _ _ _ hapos]]
    exact hexPassF_id_of_free _ s hhex

/-- Counterexample to C3 as stated: a supplementary-plane decimal reference (value 65600)
does not decode to the corresponding code point; String.fromCharCode reduces the value
modulo 2 ^ 16, yielding the single code unit 64 instead of the surrogate pair. -/
theorem decodeHTMLEntities_codepoint_counterexample :
    decodeHTMLEntities (jstr "&#65600;") = [64] ∧
    decodeHTMLEntities (jstr "&#65600;") ≠ utf16Char (Char.ofNat 65600) := by
  decide

/-- Witness for C3 at a concrete input: the reference with digits 6 5 decodes to the code
unit 65, and a malformed reference is passed through unchanged. -/
theorem decodeHTMLEntities_numeric_refs_witness :
    decodeHTMLEntities (38 :: 35 :: ([54, 53] ++ [59])) = [65] ∧
    decodeHTMLEntities (jstr "&#zz;") = jstr "&#zz;" := by
  constructor
  · rw [decodeHTMLEntities_numeric_refs.2.2.1 [54, 53] (by decide) (by decide)]
    decide
  · exact decodeHTMLEntities_numeric_refs.2.2.2 (jstr "&#zz;") (by decide)

/-! Helper lemmas about the detection regexes. -/

theorem hasHtmlTest_iff (s : JStr) :
    hasHtmlTest s = true ↔ ∃ i j : Nat, i < j ∧ s[i]? = some 60 ∧ s[j]? = some 62 := by
  induction s with
  | nil => simp [hasHtmlTest]
  | cons c rest ih =>
    rw [hasHtmlTest]
    simp only [Bool.or_eq_true, Bool.and_eq_true]
    constructor
    · rintro (⟨hc, hmem⟩ | h)
      · have hc60 : c = 60 := beq_iff_eq.mp hc
        have hm : 62 ∈ rest := by simpa using hmem
        obtain ⟨k, hk⟩ := List.mem_iff_getElem?.mp hm
        exact ⟨0, k + 1, by omega, by simp [hc60], by simpa using hk⟩
      · obtain ⟨i, j, hij, hi, hj⟩ := ih.mp h
        exact ⟨i + 1, j + 1, by omega, by simpa using hi, by simpa using hj⟩
    · rintro ⟨i, j, hij, hi, hj⟩
      cases i with
      | zero =>
        left
        have hc : c = 60 := by simpa using hi
        obtain ⟨j2, rfl⟩ : ∃ j2, j = j2 + 1 := ⟨j - 1, by omega⟩
        refine ⟨by simp [hc], ?_⟩
        have hj2 : rest[j2]? = some 62 := by simpa using hj
        have hm : 62 ∈ rest := List.mem_iff_getElem?.mpr ⟨j2, hj2⟩
        simpa using hm
      | succ i2 =>
        right
        apply ih.mpr
        obtain ⟨j2, rfl⟩ : ∃ j2, j = j2 + 1 := ⟨j - 1, by omega⟩
        exact ⟨i2, j2, by omega, by simpa using hi, by simpa using hj⟩

theorem entSemi_iff (r : JStr) :
    entSemi r = true ↔ ∃ j : Nat, r[j]? = some 59 ∧
      ∀ m, m < j → ∃ u, r[m]? = some u ∧ isEntityChar u = true := by
  induction r with
  | nil => simp [entSemi]
  | cons c rest ih =>
    rw [entSemi]
    simp only [Bool.or_eq_true, Bool.and_eq_true]
    constructor
    · rintro (hc | ⟨hc, hs⟩)
      · exact ⟨0, by simp [beq_iff_eq.mp hc], fun m hm => absurd hm (by omega)⟩
      · obtain ⟨j, hj, hmid⟩ := ih.mp hs
        refine ⟨j + 1, by simpa using hj, ?_⟩
        intro m hm
        cases m with
        | zero => exact ⟨c, by simp, hc⟩
        | succ m2 =>
          obtain ⟨u, hu1, hu2⟩ := hmid m2 (by omega)
          exact ⟨u, by simpa using hu1, hu2⟩
    · rintro ⟨j, hj, hmid⟩
      cases j with
      | zero =>
        left
        have hc : c = 59 := by simpa using hj
        simp [hc]
      | succ j2 =>
        right
        obtain ⟨u, hu1, hu2⟩ := hmid 0 (by omega)
        have hu : u = c := by have := hu1; simp at this; omega
        constructor
        · rw [← hu]; exact hu2
        · apply ih.mpr
          refine ⟨j2, by simpa using hj, ?_⟩
          intro m hm
          obtain ⟨u2, h1, h2⟩ := hmid (m + 1) (by omega)
          exact ⟨u2, by simpa using h1, h2⟩

theorem entAfterAmp_iff (r : JStr) :
    entAfterAmp r = true ↔ ∃ j : Nat, 1 ≤ j ∧ r[j]? = some 59 ∧
      ∀ m, m < j → ∃ u, r[m]? = some u ∧ isEntityChar u = true := by
  cases r with
  | nil => simp [entAfterAmp]
  | cons c rest =>
    rw [entAfterAmp]
    simp only [Bool.and_eq_true]
    constructor
    · rintro ⟨hc, hs⟩
      obtain ⟨j, hj, hmid⟩ := (entSemi_iff rest).mp hs
      refine ⟨j + 1, by omega, by simpa using hj, ?_⟩
      intro m hm
      cases m with
      | zero => exact ⟨c, by simp, hc⟩
      | succ m2 =>
        obtain ⟨u, h1, h2⟩ := hmid m2 (by omega)
        exact ⟨u, by simpa using h1, h2⟩
    · rintro ⟨j, hj1, hj2, hmid⟩
      obtain ⟨u, h1, h2⟩ := hmid 0 (by omega)
      have hu : u = c := by have := h1; simp at this; omega
      refine ⟨by rw [← hu]; exact h2, ?_⟩
      apply (entSemi_iff rest).mpr
      obtain ⟨j2, rfl⟩ : ∃ j2, j = j2 + 1 := ⟨j - 1, by omega⟩
      refine ⟨j2, by simpa using hj2, ?_⟩
      intro m hm
      obtain ⟨u2, h3, h4⟩ := hmid (m + 1) (by omega)
      exact ⟨u2, by simpa using h3, h4⟩

theorem hasEntitiesTest_iff (s : JStr) :
    hasEntitiesTest s = true ↔ ∃ i j : Nat, i + 1 < j ∧ s[i]? = some 38 ∧
      s[j]? = some 59 ∧
      ∀ m, i < m → m < j → ∃ u, s[m]? = some u ∧ isEntityChar u = true := by
  induction s with
  | nil => simp [hasEntitiesTest]
  | cons c rest ih =>
    rw [hasEntitiesTest]
    simp only [Bool.or_eq_true, Bool.and_eq_true]
    constructor
    · rintro (⟨hc, ha⟩ | h)
      · obtain ⟨j, hj1, hj2, hmid⟩ := (entAfterAmp_iff rest).mp ha
        refine ⟨0, j + 1, by omega, by simp [beq_iff_eq.mp hc], by simpa using hj2, ?_⟩
        intro m hm1 hm2
        obtain ⟨m2, rfl⟩ : ∃ m2, m = m2 + 1 := ⟨m - 1, by omega⟩
        obtain ⟨u, h1, h2⟩ := hmid m2 (by omega)
        exact ⟨u, by simpa using h1, h2⟩
      · obtain ⟨i, j, h1, h2, h3, hmid⟩ := ih.mp h
        refine ⟨i + 1, j + 1, by omega, by simpa using h2, by simpa using h3, ?_⟩
        intro m hm1 hm2
        obtain ⟨m2, rfl⟩ : ∃ m2, m = m2 + 1 := ⟨m - 1, by omega⟩
        obtain ⟨u, h4, h5⟩ := hmid m2 (by omega) (by omega)
        exact ⟨u, by simpa using h4, h5⟩
    · rintro ⟨i, j, hij, hi, hj, hmid⟩
      cases i with
      | zero =>
        left
        have hc : c = 38 := by simpa using hi
        refine ⟨by simp [hc], ?_⟩
        apply (entAfterAmp_iff rest).mpr
        obtain ⟨j2, rfl⟩ : ∃ j2, j = j2 + 1 := ⟨j - 1, by omega⟩
        refine ⟨j2, by omega, by simpa using hj, ?_⟩
        intro m hm
        obtain ⟨u, h1, h2⟩ := hmid (m + 1) (by omega) (by omega)
        exact ⟨u, by simpa using h1, h2⟩
      | succ i2 =>
        right
        apply ih.mpr
        obtain ⟨j2, rfl⟩ : ∃ j2, j = j2 + 1 := ⟨j - 1, by omega⟩
        refine ⟨i2, j2, by omega, by simpa using hi, by simpa using hj, ?_⟩
        intro m hm1 hm2
        obtain ⟨u, h1, h2⟩ := hmid (m + 1) (by omega) (by omega)
        exact ⟨u, by simpa using h1, h2⟩

/-! Claim theorems: detection flags of processCell. -/

/-- C8 (amended): detection flags are computed on the original (stringified) value before
any cleaning: hasHtml holds exactly when the original has a less-than sign followed
somewhere later by a greater-than sign (the tag-shaped regex), and hasEntities exactly
when it has an ampersand, at least one letter, digit or hash, and then a semicolon; null,
undefined and the empty string yield the empty record, while any other non-string value
(such as a number) is stringified and processed like a string rather than mapped to the
empty record. -/
theorem processCell_flags (v : JSValue)
    (hv : v ≠ .nullv ∧ v ≠ .undefv ∧ v ≠ .str []) :
    (processCell v).original = jsToString v ∧
    ((processCell v).hasHtml = true ↔ ∃ i j : Nat, i < j ∧
      (jsToString v)[i]? = some 60 ∧ (jsToString v)[j]? = some 62) ∧
    ((processCell v).hasEntities = true ↔ ∃ i j : Nat, i + 1 < j ∧
      (jsToString v)[i]? = some 38 ∧ (jsToString v)[j]? = some 59 ∧
      ∀ m, i < m → m < j → ∃ u, (jsToString v)[m]? = some u ∧ isEntityChar u = true) ∧
    processCell .nullv = emptyCellRec ∧ processCell .undefv = emptyCellRec ∧
    processCell (.str []) = emptyCellRec := by
  have hcond : ¬ (v = .nullv ∨ v = .undefv ∨ v = .str []) := by tauto
  refine ⟨?_, ?_, ?_, by decide, by decide, by decide⟩
  · unfold processCell
    rw [if_neg hcond]
  · unfold processCell
    rw [if_neg hcond]
    exact hasHtmlTest_iff _
  · unfold processCell
    rw [if_neg hcond]
    exact hasEntitiesTest_iff _

/-- Counterexample to C8 as stated: the numeric input 5, a non-string that is neither
null nor undefined, is stringified and processed, so its cleaned content is the numeral
5, not the empty string the claim requires for non-string input. -/
theorem processCell_nonstring_counterexample :
    (processCell (JSValue.num 5)).cleaned = jstr "5" ∧
    (processCell (JSValue.num 5)).cleaned ≠ [] := by
  decide

/-- Witness for C8 at a concrete input: a tag-shaped original reports hasHtml through the
positional characterization, and the original field is the raw string. -/
theorem processCell_flags_witness :
    (processCell (JSValue.str (jstr "x<y>"))).hasHtml = true ∧
    (processCell (JSValue.str (jstr "x<y>"))).original = jstr "x<y>" := by
  have h := processCell_flags (JSValue.str (jstr "x<y>"))
    ⟨by decide, by decide, by decide⟩
  exact ⟨h.2.1.mpr ⟨1, 3, by decide, by decide, by decide⟩, h.1⟩

/-! Claim theorems: ingestion column selection. -/

theorem chunkedMapF_eq_map {α β : Type} (g : α → β) :
    ∀ (f : Nat) (l : List α), l.length ≤ f → chunkedMapF g f l = l.map g := by
  intro f
  induction f with
  | zero =>
    intro l h
    have hnil : l = [] := List.eq_nil_of_length_eq_zero (Nat.le_zero.mp h)
    subst hnil
    rfl
  | succ f ih =>
    intro l h
    cases l with
    | nil => rfl
    | cons a l0 =>
      rw [chunkedMapF, ih ((a :: l0).drop 100)
        (by rw [List.length_drop]; simp only [List.length_cons] at h ⊢; omega)]
      rw [← List.map_append, List.take_append_drop]

/-- C5 (amended): ingestion drops the rows with no non-empty cell, then keeps exactly the
column indices, below the first surviving row width, that hold a non-blank trimmed value
in some surviving row — interior all-blank columns are dropped together with trailing
ones — and every produced row has exactly that many cells. -/
theorem parseExcelFile_columns (rows : List (List JStr)) :
    (parseExcelFile rows).length = (rows.filter rowHasContent).length ∧
    (∀ r, r ∈ parseExcelFile rows → r.length =
      ((List.range ((rows.filter rowHasContent).headD []).length).filter
        (colHasData (rows.filter rowHasContent))).length) ∧
    (∀ c : Nat, colHasData (rows.filter rowHasContent) c = true ↔
      ∃ row ∈ rows.filter rowHasContent, trimWS (row.getD c []) ≠ []) := by
  have hmap : parseExcelFile rows = (rows.filter rowHasContent).map
      (fun r => ((List.range ((rows.filter rowHasContent).headD []).length).filter
        (colHasData (rows.filter rowHasContent))).map
          (fun c => processCell (jsCellAt r c))) := by
    unfold parseExcelFile
    exact chunkedMapF_eq_map _ _ _ le_rfl
  refine ⟨?_, ?_, ?_⟩
  · rw [hmap]; simp
  · intro r hr
    rw [hmap] at hr
    obtain ⟨row, _, rfl⟩ := List.mem_map.mp hr
    simp
  · intro c
    unfold colHasData
    rw [List.any_eq_true]
    constructor
    · rintro ⟨row, hrow, hcell⟩
      refine ⟨row, hrow, ?_⟩
      cases hc : row[c]? with
      | none => rw [hc] at hcell; simp at hcell
      | some s =>
        rw [hc] at hcell
        simp only [Bool.and_eq_true, Bool.not_eq_true', beq_eq_false_iff_ne] at hcell
        rw [List.getD_eq_getElem?_getD, hc]
        exact hcell.2
    · rintro ⟨row, hrow, htrim⟩
      refine ⟨row, hrow, ?_⟩
      cases hc : row[c]? with
      | none =>
        rw [List.getD_eq_getElem?_getD, hc] at htrim
        exact absurd rfl htrim
      | some s =>
        rw [List.getD_eq_getElem?_getD, hc] at htrim
        simp only [Option.getD_some] at htrim
        have hs : s ≠ [] := fun h => htrim (by rw [h]; rfl)
        simp [hs, htrim]

/-- Counterexample to C5 as stated: a sheet whose single row has a blank interior cell
between two non-blank ones keeps only 2 columns, while the effective column count of the
claim (last non-blank index plus one, dropping only trailing blanks) is 3. -/
theorem parseExcelFile_interior_column_counterexample :
    ((parseExcelFile [[jstr "a", [], jstr "b"]]).getD 0 []).length = 2 ∧
    specEffectiveColCount [[jstr "a", [], jstr "b"]] = 3 ∧
    ((parseExcelFile [[jstr "a", [], jstr "b"]]).getD 0 []).length ≠
      specEffectiveColCount [[jstr "a", [], jstr "b"]] := by
  decide

/-- Witness for C5 at a concrete input: the 20-column sheet with data only in columns 0
through 10 produces rows of exactly 11 cells. -/
theorem parseExcelFile_columns_witness :
    ((parseExcelFile sheet20).getD 0 []).length = 11 := by
  have h := (parseExcelFile_columns sheet20).2.1 ((parseExcelFile sheet20).getD 0 [])
    (by decide)
  rw [h]
  decide

/-! Claim theorems: rehydration. -/

/-- C6 (amended): rehydration preserves the grid shape for every grid and translation
map; a cell with blank trimmed cleaned content passes through unchanged; a cell whose
trimmed cleaned text is a key bound to a non-empty value has both cleaned and original
replaced by that value (an empty mapped value is discarded by the falsy-or fallback and
the cleaned text is kept instead). -/
theorem applyTranslations_shape (data : List (List CellRec)) (tmap : List (JStr × JStr)) :
    (applyTranslations data tmap).length = data.length ∧
    (∀ i : Nat, ((applyTranslations data tmap)[i]?).map List.length =
      (data[i]?).map List.length) ∧
    (∀ i j : Nat, ∀ row cell, data[i]? = some row → row[j]? = some cell →
      (trimWS cell.cleaned = [] →
        ((applyTranslations data tmap)[i]?).bind (fun r => r[j]?) = some cell) ∧
      (∀ t, lookupMap tmap (trimWS cell.cleaned) = some t → t ≠ [] →
        trimWS cell.cleaned ≠ [] →
        ((applyTranslations data tmap)[i]?).bind (fun r => r[j]?) =
          some { cell with cleaned := t, original := t })) := by
  refine ⟨by simp [applyTranslations], ?_, ?_⟩
  · intro i
    unfold applyTranslations
    rw [List.getElem?_map]
    cases data[i]? with
    | none => rfl
    | some row => simp
  · intro i j row cell hi hj
    constructor
    · intro htrim
      unfold applyTranslations
      simp only [List.getElem?_map, hi, Option.map_some', Option.some_bind, hj]
      rw [if_neg (by simp [htrim])]
    · intro t hlook htne htrim
      unfold applyTranslations
      simp only [List.getElem?_map, hi, Option.map_some', Option.some_bind, hj]
      have hcl : cell.cleaned ≠ [] := fun h => htrim (by rw [h]; rfl)
      rw [if_pos (by simp [hcl, htrim]), hlook]
      simp only []
      rw [if_neg (by simp [htne])]

/-- Counterexample to C6 as stated: a map binding the key to the empty string is not
applied — the falsy-or fallback keeps the cleaned text — so the cell fields are not
replaced by the mapped value. -/
theorem applyTranslations_counterexample :
    (((applyTranslations [[⟨jstr "x", jstr "a", false, false, false⟩]]
        [(jstr "a", [])]).getD 0 []).getD 0 emptyCellRec).cleaned ≠ [] := by
  decide

/-- Witness for C6 at a concrete input: a one-cell grid with a mapped non-empty value has
both fields replaced. -/
theorem applyTranslations_shape_witness :
    ((applyTranslations [[⟨jstr "x", jstr "a", false, false, false⟩]]
        [(jstr "a", jstr "T")])[0]?).bind (fun r => r[0]?) =
      some ⟨jstr "T", jstr "T", false, false, false⟩ := by
  have h := (applyTranslations_shape [[⟨jstr "x", jstr "a", false, false, false⟩]]
    [(jstr "a", jstr "T")]).2.2 0 0 _ _ rfl rfl
  exact h.2 (jstr "T") (by decide) (by decide) (by decide)

/-! Claim theorems: dataset quality scenario. -/

/-- C9: on a dataset of 10 records with non-empty questions, of which exactly 2 have all
four variant fields empty and exactly 1 has two answer codes equal to 1, analyzeDataset
reports questionsWithMissingVariants equal to 2 and produces exactly one detailed issue
of type Multiple Correct Answers. -/
theorem analyzeDataset_scenario :
    scenarioDataset.length = 10 ∧
    scenarioDataset.all (fun row => !(trimWS (cellCleanedAt row 2)).isEmpty) = true ∧
    (scenarioDataset.filter (fun row =>
      [cellCleanedAt row 3, cellCleanedAt row 5, cellCleanedAt row 7,
        cellCleanedAt row 9].all (fun v => v.isEmpty))).length = 2 ∧
    (scenarioDataset.filter (fun row =>
      ([cellCleanedAt row 4, cellCleanedAt row 6, cellCleanedAt row 8,
        cellCleanedAt row 10].filter (fun c => c == jstr "1")).length == 2)).length = 1 ∧
    (analyzeDataset scenarioDataset).statistics.questionsWithMissingVariants = 2 ∧
    ((analyzeDataset scenarioDataset).detailedIssues.filter
      (fun i => i.itype == jstr "Multiple Correct Answers")).length = 1 := by
  decide

end ExcelProc
